import Mathlib

/-! # Emulated 128-bit unsigned integer (`boost/charconv/detail/emulated128.hpp`)

A shallow embedding of `struct uint128` and its operators.  A 64-bit word is a
natural number below `2^64`; every machine operation on words is written with
its explicit reduction modulo `2^64`.
-/

namespace charconv

/-! ## 64-bit words -/

/-- The constant `UINT64_MAX`. -/
def UINT64_MAX : Nat := 2 ^ 64 - 1

/-- The constant `UINT32_MAX`. -/
def UINT32_MAX : Nat := 2 ^ 32 - 1

/-- Wrapping `std::uint64_t` addition. -/
def add64 (x y : Nat) : Nat := (x + y) % 2 ^ 64

/-- Wrapping `std::uint64_t` subtraction (for words `x`, `y`). -/
def sub64 (x y : Nat) : Nat := (x + 2 ^ 64 - y % 2 ^ 64) % 2 ^ 64

/-- Wrapping `std::uint64_t` multiplication. -/
def mul64 (x y : Nat) : Nat := (x * y) % 2 ^ 64

/-- The shift `x << n` of a `std::uint64_t`: bits moved past bit 63 are dropped.
C++ defines it for `n < 64` only; the model keeps the arithmetic value for
larger `n`. -/
def shl64 (x n : Nat) : Nat := (x <<< n) % 2 ^ 64

/-- The shift `x >> n` of a `std::uint64_t`. -/
def shr64 (x n : Nat) : Nat := x >>> n

/-- The bitwise `x | y` of two words. -/
def or64 (x y : Nat) : Nat := x ||| y

/-- The bitwise `x & y` of two words. -/
def and64 (x y : Nat) : Nat := x &&& y

/-! ## The type -/

/-- The `struct uint128`: two `std::uint64_t` members `high` and `low`. -/
structure uint128 where
  high : Nat
  low : Nat
  high_lt : high < 2 ^ 64
  low_lt : low < 2 ^ 64
  deriving DecidableEq

namespace uint128

/-- The value `high * 2^64 + low` a `uint128` stands for. -/
def val (x : uint128) : Nat := x.high * 2 ^ 64 + x.low

/-- The constructor `uint128(std::uint64_t high_, std::uint64_t low_)`; a
computed word is stored reduced to 64 bits. -/
def mk64 (high_ low_ : Nat) : uint128 :=
  ⟨high_ % 2 ^ 64, low_ % 2 ^ 64, Nat.mod_lt _ (by decide), Nat.mod_lt _ (by decide)⟩

/-- The `UNSIGNED_CONSTRUCTOR`: `high {}`, `low {static_cast<std::uint64_t>(v)}`. -/
def ofUnsigned (v : Nat) : uint128 := mk64 0 v

/-- The `SIGNED_CONSTRUCTOR`: `high {v < 0 ? UINT64_MAX : 0}`,
`low {static_cast<std::uint64_t>(v)}`. -/
def ofSigned (v : Int) : uint128 :=
  mk64 (if v < 0 then UINT64_MAX else 0) (v % 2 ^ 64).toNat

/-! ## Comparisons (`operator==`, `operator<`, ...) -/

/-- The `operator==(uint128, uint128)`. -/
def eq (lhs rhs : uint128) : Bool := lhs.high == rhs.high && lhs.low == rhs.low

/-- The `operator!=(uint128, uint128)`. -/
def ne (lhs rhs : uint128) : Bool := !(eq lhs rhs)

/-- The `operator<(uint128, uint128)`. -/
def lt (lhs rhs : uint128) : Bool :=
  if lhs.high == rhs.high then decide (lhs.low < rhs.low) else decide (lhs.high < rhs.high)

/-- The `operator<=(uint128, uint128)`. -/
def le (lhs rhs : uint128) : Bool := !(lt rhs lhs)

/-- The `operator>(uint128, uint128)`. -/
def gt (lhs rhs : uint128) : Bool := lt rhs lhs

/-- The `operator>=(uint128, uint128)`. -/
def ge (lhs rhs : uint128) : Bool := !(lt lhs rhs)

/-! ## Bitwise operators -/

/-- The `operator|(uint128, uint128)`. -/
def or (lhs rhs : uint128) : uint128 :=
  mk64 (or64 lhs.high rhs.high) (or64 lhs.low rhs.low)

/-! ## Shifts -/

/-- The `operator<<(uint128 lhs, expr rhs)` of `INTEGER_BINARY_OPERATOR_LEFT_SHIFT`,
for a non-negative amount `rhs`. -/
def shl (lhs : uint128) (rhs : Nat) : uint128 :=
  if rhs ≥ 64 then
    mk64 (shl64 lhs.low (rhs - 64)) 0
  else if rhs = 0 then
    lhs
  else
    mk64 (or64 (shl64 lhs.high rhs) (shr64 lhs.low (64 - rhs))) (shl64 lhs.low rhs)

/-- The `operator>>(uint128 lhs, expr amount)` of `INTEGER_BINARY_OPERATOR_RIGHT_SHIFT`,
for a non-negative amount. -/
def shr (lhs : uint128) (amount : Nat) : uint128 :=
  if amount ≥ 64 then
    mk64 0 (shr64 lhs.high (amount - 64))
  else if amount = 0 then
    lhs
  else
    mk64 (shr64 lhs.high amount) (or64 (shr64 lhs.low amount) (shl64 lhs.high (64 - amount)))

/-! ## Arithmetic -/

/-- The `operator+(uint128, uint128)`. -/
def add (lhs rhs : uint128) : uint128 :=
  let temp := mk64 (add64 lhs.high rhs.high) (add64 lhs.low rhs.low)
  if temp.low < lhs.low then
    mk64 (add64 temp.high 1) temp.low
  else
    temp

/-- The `operator-(uint128, uint128)`. -/
def sub (lhs rhs : uint128) : uint128 :=
  let temp := mk64 (sub64 lhs.high rhs.high) (sub64 lhs.low rhs.low)
  if lhs.low < rhs.low then
    mk64 (sub64 temp.high 1) temp.low
  else
    temp

/-- The `operator*(uint128, uint128)`. -/
def mul (lhs rhs : uint128) : uint128 :=
  let a := shr64 lhs.low 32
  let b := and64 lhs.low UINT32_MAX
  let c := shr64 rhs.low 32
  let d := and64 rhs.low UINT32_MAX
  let result := mk64 (add64 (add64 (mul64 lhs.high rhs.low) (mul64 lhs.low rhs.high)) (mul64 a c))
    (mul64 b d)
  let result := add result (shl (ofUnsigned (mul64 a d)) 32)
  let result := add result (shl (ofUnsigned (mul64 b c)) 32)
  result

/-! ## Division -/

/-- The number of zero bits above the most significant set bit of `x`, among
its `k` lowest bits. -/
def countl_zero_bits : Nat → Nat → Nat
  | 0, _ => 0
  | k + 1, x => if 2 ^ k ≤ x then 0 else countl_zero_bits k x + 1

/-- The function `boost::core::countl_zero` on a 64-bit word: the number of
leading zero bits (64 for the word 0). -/
def countl_zero (x : Nat) : Nat := countl_zero_bits 64 x

/-- The function `high_bit(uint128 v)`. -/
def high_bit (v : uint128) : Int :=
  if v.high ≠ 0 then
    127 - (countl_zero v.high : Int)
  else if v.low ≠ 0 then
    63 - (countl_zero v.low : Int)
  else
    0

/-- The variables of `div_impl` that its loop updates. -/
structure DivState where
  lhs : uint128
  denom : uint128
  quotient : uint128
  remainder : uint128

/-- One pass through the body of the `for` loop of `div_impl`. -/
def div_step (s : DivState) : DivState :=
  let s := { s with quotient := shl s.quotient 1 }
  let s := if ge s.lhs s.denom then
      { s with lhs := sub s.lhs s.denom, quotient := or s.quotient (mk64 0 1) }
    else s
  { s with denom := shr s.denom 1 }

/-- The loop `for (int i = 0; i <= shift; ++i)` of `div_impl`, given the number
of passes that remain. -/
def div_loop : Nat → DivState → DivState
  | 0, s => s
  | n + 1, s => div_loop n (div_step s)

/-- The general part of `div_impl`, from `uint128 denom = rhs;` to the end. -/
def div_general (s : DivState) (rhs : uint128) : DivState :=
  let s := { s with denom := rhs }
  let s := { s with quotient := ofUnsigned 0 }
  let shift : Int := high_bit s.lhs - high_bit rhs
  let shift : Int := if shift < 0 then 32 - shift else shift
  let s := { s with denom := shl s.denom shift.toNat }
  let s := div_loop (shift + 1).toNat s
  { s with remainder := s.lhs }

/-- The two branches in front of `div_impl`: `if (rhs > lhs) { ... } else if
(lhs == rhs) { ... }`. They assign to the results and do not return. -/
def div_shortcuts (s : DivState) (rhs : uint128) : DivState :=
  if gt rhs s.lhs then
    { s with quotient := ofUnsigned 0, remainder := ofUnsigned 0 }
  else if eq s.lhs rhs then
    { s with quotient := ofUnsigned 1, remainder := ofUnsigned 0 }
  else s

/-- The function `div_impl(lhs, rhs, quotient, remainder)`: the final values of
the two reference parameters `quotient` and `remainder`. -/
def div_impl (lhs rhs quotient remainder : uint128) : uint128 × uint128 :=
  let s : DivState := ⟨lhs, rhs, quotient, remainder⟩
  let s := div_shortcuts s rhs
  let s := div_general s rhs
  (s.quotient, s.remainder)

/-- The `operator/(uint128, uint128)`. -/
def div (lhs rhs : uint128) : uint128 :=
  (div_impl lhs rhs (mk64 0 0) (mk64 0 0)).1

/-- The `operator%(uint128, uint128)`. -/
def mod (lhs rhs : uint128) : uint128 :=
  (div_impl lhs rhs (mk64 0 0) (mk64 0 0)).2

/-! ## Construction and assignment from a built-in integer -/

/-- The conversion `static_cast<std::uint64_t>(v)` of a built-in integer `v`. -/
def cast64 (v : Int) : Nat := (v % 2 ^ 64).toNat

/-- The conversion `static_cast<std::uint32_t>(v)` of an unsigned word. -/
def cast32 (v : Nat) : Nat := v % 2 ^ 32

/-- The `SIGNED_ASSIGNMENT_OPERATOR`: `high = v < 0 ? UINT64_MAX : 0;
low = static_cast<std::uint64_t>(v); return *this;`. -/
def assign_signed (_self : uint128) (v : Int) : uint128 :=
  mk64 (if v < 0 then UINT64_MAX else 0) (cast64 v)

/-- The `UNSIGNED_ASSIGNMENT_OPERATOR`: `high = 0U;
low = static_cast<std::uint64_t>(v); return *this;`. -/
def assign_unsigned (_self : uint128) (v : Nat) : uint128 :=
  mk64 0 v

/-! ## Comparisons with a signed built-in integer -/

/-- The `operator==(uint128 lhs, expr rhs)` of `INTEGER_OPERATOR_EQUAL`. -/
def eq_signed (lhs : uint128) (rhs : Int) : Bool :=
  lhs.high == 0 && decide (rhs ≥ 0) && lhs.low == cast64 rhs

/-- The `operator!=(uint128 lhs, expr rhs)` of `INTEGER_OPERATOR_NOTEQUAL`, at a
signed type. -/
def ne_signed (lhs : uint128) (rhs : Int) : Bool := !(eq_signed lhs rhs)

/-- The `operator<(uint128 lhs, expr rhs)` of `INTEGER_OPERATOR_LESS_THAN`. -/
def lt_signed (lhs : uint128) (rhs : Int) : Bool :=
  lhs.high == 0 && decide (rhs > 0) && decide (lhs.low < cast64 rhs)

/-- The `operator<=(uint128 lhs, expr rhs)` of
`INTEGER_OPERATOR_LESS_THAN_OR_EQUAL_TO`. -/
def le_signed (lhs : uint128) (rhs : Int) : Bool :=
  lhs.high == 0 && decide (rhs ≥ 0) && decide (lhs.low ≤ cast64 rhs)

/-- The `operator>(uint128 lhs, expr rhs)` of `INTEGER_OPERATOR_GREATER_THAN`. -/
def gt_signed (lhs : uint128) (rhs : Int) : Bool :=
  decide (lhs.high > 0) || decide (rhs < 0) || decide (lhs.low > cast64 rhs)

/-- The `operator>=(uint128 lhs, expr rhs)` of
`INTEGER_OPERATOR_GREATER_THAN_OR_EQUAL_TO`. -/
def ge_signed (lhs : uint128) (rhs : Int) : Bool :=
  decide (lhs.high > 0) || decide (rhs < 0) || decide (lhs.low ≥ cast64 rhs)

/-! ## Bitwise AND -/

/-- The `operator&(uint128, uint128)`. -/
def and (lhs rhs : uint128) : uint128 :=
  mk64 (and64 lhs.high rhs.high) (and64 lhs.low rhs.low)

/-- The `operator&(uint128 lhs, expr rhs)` of `INTEGER_BINARY_OPERATOR_AND`, for
a built-in integer `rhs` of either signedness. -/
def and_integer (lhs : uint128) (rhs : Int) : uint128 :=
  mk64 lhs.high (and64 lhs.low (cast64 rhs))

/-! ## Widening multiplication

The functions below choose a branch at compile time. The flag `has_int128`
stands for `BOOST_CHARCONV_HAS_INT128`; when it is false the portable `#else`
branch is taken. The branches made of MSVC and ARM intrinsics are not part of
this file. -/

/-- The `operator+=(std::uint64_t n)`, portable branch: `auto sum = low + n;
high += (sum < low ? 1 : 0); low = sum;`. -/
def add_assign_u64 (self : uint128) (n : Nat) : uint128 :=
  let sum := add64 self.low n
  let high := add64 self.high (if sum < self.low then 1 else 0)
  mk64 high sum

/-- The function `umul64(std::uint32_t x, std::uint32_t y)`:
`x * static_cast<std::uint64_t>(y)`. -/
def umul64 (x y : Nat) : Nat := mul64 x y

/-- The branch of `umul128` under `BOOST_CHARCONV_HAS_INT128`: the product in
the built-in 128-bit type, split into its two words. -/
def umul128_native (x y : Nat) : uint128 :=
  let result := (x * y) % 2 ^ 128
  mk64 (result >>> 64) result

/-- The value `intermediate` of the portable branch of `umul128` and of
`umul128_upper64`. -/
def umul128_intermediate (x y : Nat) : Nat :=
  let a := cast32 (shr64 x 32)
  let b := cast32 x
  let c := cast32 (shr64 y 32)
  let d := cast32 y
  let bc := umul64 b c
  let ad := umul64 a d
  let bd := umul64 b d
  add64 (add64 (shr64 bd 32) (cast32 ad)) (cast32 bc)

/-- The portable `#else` branch of `umul128`, on 32-bit limbs. -/
def umul128_portable (x y : Nat) : uint128 :=
  let a := cast32 (shr64 x 32)
  let b := cast32 x
  let c := cast32 (shr64 y 32)
  let d := cast32 y
  let ac := umul64 a c
  let bc := umul64 b c
  let ad := umul64 a d
  let bd := umul64 b d
  let intermediate := add64 (add64 (shr64 bd 32) (cast32 ad)) (cast32 bc)
  mk64 (add64 (add64 (add64 ac (shr64 intermediate 32)) (shr64 ad 32)) (shr64 bc 32))
    (add64 (shl64 intermediate 32) (cast32 bd))

/-- The function `umul128(std::uint64_t x, std::uint64_t y)`. -/
def umul128 (has_int128 : Bool) (x y : Nat) : uint128 :=
  if has_int128 then umul128_native x y else umul128_portable x y

/-- The branch of `umul128_upper64` under `BOOST_CHARCONV_HAS_INT128`. -/
def umul128_upper64_native (x y : Nat) : Nat :=
  let result := (x * y) % 2 ^ 128
  (result >>> 64) % 2 ^ 64

/-- The portable `#else` branch of `umul128_upper64`. -/
def umul128_upper64_portable (x y : Nat) : Nat :=
  let a := cast32 (shr64 x 32)
  let b := cast32 x
  let c := cast32 (shr64 y 32)
  let d := cast32 y
  let ac := umul64 a c
  let bc := umul64 b c
  let ad := umul64 a d
  let bd := umul64 b d
  let intermediate := add64 (add64 (shr64 bd 32) (cast32 ad)) (cast32 bc)
  add64 (add64 (add64 ac (shr64 intermediate 32)) (shr64 ad 32)) (shr64 bc 32)

/-- The function `umul128_upper64(std::uint64_t x, std::uint64_t y)`. -/
def umul128_upper64 (has_int128 : Bool) (x y : Nat) : Nat :=
  if has_int128 then umul128_upper64_native x y else umul128_upper64_portable x y

/-- The function `umul192_upper128(std::uint64_t x, uint128 y)`. -/
def umul192_upper128 (has_int128 : Bool) (x : Nat) (y : uint128) : uint128 :=
  let r := umul128 has_int128 x y.high
  let r := add_assign_u64 r (umul128_upper64 has_int128 x y.low)
  r

/-- The portable `#else` branch of `umul96_upper64`. -/
def umul96_upper64_portable (x y : Nat) : Nat :=
  let yh := cast32 (shr64 y 32)
  let yl := cast32 y
  let xyh := umul64 x yh
  let xyl := umul64 x yl
  add64 xyh (shr64 xyl 32)

/-- The function `umul96_upper64(std::uint32_t x, std::uint64_t y)`; its first
branch is `umul128_upper64(static_cast<std::uint64_t>(x) << 32, y)`. -/
def umul96_upper64 (has_int128 : Bool) (x y : Nat) : Nat :=
  if has_int128 then umul128_upper64 has_int128 (shl64 x 32) y
  else umul96_upper64_portable x y

/-- The function `umul192_lower128(std::uint64_t x, uint128 y)`. -/
def umul192_lower128 (has_int128 : Bool) (x : Nat) (y : uint128) : uint128 :=
  let high := mul64 x y.high
  let highlow := umul128 has_int128 x y.low
  mk64 (add64 high highlow.high) highlow.low

/-- The function `umul96_lower64(std::uint32_t x, std::uint64_t y)`: `x * y`. -/
def umul96_lower64 (x y : Nat) : Nat := mul64 x y

/-! ## Bitwise OR and XOR with a built-in integer -/

/-- The bitwise `x ^ y` of two words. -/
def xor64 (x y : Nat) : Nat := x ^^^ y

/-- The `operator^(uint128, uint128)`. -/
def xor (lhs rhs : uint128) : uint128 :=
  mk64 (xor64 lhs.high rhs.high) (xor64 lhs.low rhs.low)

/-- The `operator|(uint128 lhs, expr rhs)` of `INTEGER_BINARY_OPERATOR_OR`, for a
built-in integer `rhs` of either signedness. -/
def or_integer (lhs : uint128) (rhs : Int) : uint128 :=
  mk64 lhs.high (or64 lhs.low (cast64 rhs))

/-- The `operator^(uint128 lhs, expr rhs)` of `INTEGER_BINARY_OPERATOR_XOR`, for
a built-in integer `rhs` of either signedness. -/
def xor_integer (lhs : uint128) (rhs : Int) : uint128 :=
  mk64 lhs.high (xor64 lhs.low (cast64 rhs))

/-! ## Increment and decrement -/

/-- The prefix `uint128::operator++()`: the value of `*this` afterwards. -/
def inc (self : uint128) : uint128 :=
  if self.low = UINT64_MAX then
    mk64 (add64 self.high 1) 0
  else
    mk64 self.high (add64 self.low 1)

/-- The prefix `uint128::operator--()`: the value of `*this` afterwards. -/
def dec (self : uint128) : uint128 :=
  if self.low = 0 then
    mk64 (sub64 self.high 1) UINT64_MAX
  else
    mk64 self.high (sub64 self.low 1)

/-! ## The loop count of `div_impl` -/

/-- The value of `shift` in `div_impl` when the loop starts:
`high_bit(lhs) - high_bit(rhs)`, replaced by `32 - shift` when negative. -/
def div_shift (lhs rhs : uint128) : Int :=
  let shift : Int := high_bit lhs - high_bit rhs
  if shift < 0 then 32 - shift else shift

/-- The number of passes of `for (int i = 0; i <= shift; ++i)` in `div_impl`. -/
def div_iterations (lhs rhs : uint128) : Nat := (div_shift lhs rhs + 1).toNat

/-! ## Comparisons with an unsigned built-in integer -/

/-- The `operator==(uint128 lhs, expr rhs)` of `UNSIGNED_INTEGER_OPERATOR_EQUAL`. -/
def eq_unsigned (lhs : uint128) (rhs : Nat) : Bool :=
  lhs.high == 0 && lhs.low == cast64 rhs

/-- The `operator!=(uint128 lhs, expr rhs)` of `INTEGER_OPERATOR_NOTEQUAL`, at an
unsigned type. -/
def ne_unsigned (lhs : uint128) (rhs : Nat) : Bool := !(eq_unsigned lhs rhs)

/-- The `operator<(uint128 lhs, expr rhs)` of
`UNSIGNED_INTEGER_OPERATOR_LESS_THAN`. -/
def lt_unsigned (lhs : uint128) (rhs : Nat) : Bool :=
  lhs.high == 0 && decide (lhs.low < cast64 rhs)

/-- The `operator<=(uint128 lhs, expr rhs)` of
`UNSIGNED_INTEGER_OPERATOR_LESS_THAN_OR_EQUAL_TO`. -/
def le_unsigned (lhs : uint128) (rhs : Nat) : Bool :=
  lhs.high == 0 && decide (lhs.low ≤ cast64 rhs)

/-- The `operator>(uint128 lhs, expr rhs)` of
`UNSIGNED_INTEGER_OPERATOR_GREATER_THAN`. -/
def gt_unsigned (lhs : uint128) (rhs : Nat) : Bool :=
  decide (lhs.high > 0) || decide (lhs.low > cast64 rhs)

/-- The `operator>=(uint128 lhs, expr rhs)` of
`UNSIGNED_INTEGER_OPERATOR_GREATER_THAN_OR_EQUAL_TO`. -/
def ge_unsigned (lhs : uint128) (rhs : Nat) : Bool :=
  decide (lhs.high > 0) || decide (lhs.low ≥ cast64 rhs)

/-! ## Unary minus, postfix increment and decrement -/

/-- The bitwise `~x` of a word. -/
def not64 (x : Nat) : Nat := 2 ^ 64 - 1 - x % 2 ^ 64

/-- The unary `operator-(uint128 val)`:
`{~val.high + static_cast<std::uint64_t>(val.low == 0), ~val.low + 1}`. -/
def neg (val : uint128) : uint128 :=
  mk64 (add64 (not64 val.high) (if val.low = 0 then 1 else 0)) (add64 (not64 val.low) 1)

/-- The postfix `uint128::operator++(int)`, `return ++(*this);`: the value of
the reference it returns, and the value of `*this` afterwards. -/
def post_inc (self : uint128) : uint128 × uint128 :=
  let updated := inc self
  (updated, updated)

/-- The postfix `uint128::operator--(int)`, `return --(*this);`: the value of
the reference it returns, and the value of `*this` afterwards. -/
def post_dec (self : uint128) : uint128 × uint128 :=
  let updated := dec self
  (updated, updated)

/-! ## The `numeric_limits` of the type -/

/-- The member `std::numeric_limits<uint128>::max()`:
`{UINT64_MAX, UINT64_MAX}`. -/
def numeric_limits_max : uint128 := mk64 UINT64_MAX UINT64_MAX

/-- The member `std::numeric_limits<uint128>::min()`: `return 0;`, converted by
the constructor from `int`. -/
def numeric_limits_min : uint128 := ofSigned 0

/-- The member constant `std::numeric_limits<uint128>::is_modulo`. -/
def numeric_limits_is_modulo : Bool := true

/-- The member constant `std::numeric_limits<uint128>::digits`. -/
def numeric_limits_digits : Nat := 128

end uint128

/-! ## Text conversion of floating values

The conversion engine (`to_chars`, `from_chars`) is not among the source files;
only its tests are. The definitions of this part follow the specification. -/

/-- Modelled from the spec: the format selector `{fixed, scientific, general,
hex}` of `to_chars` and `from_chars` (§3 "Format selector"). -/
inductive chars_format where
  | scientific
  | fixed
  | hex
  | general
  deriving DecidableEq

/-- Modelled from the spec: the error of a conversion result, `{success,
value_too_large, invalid_argument}` (§3 "Conversion result"). -/
inductive errc where
  | success
  | value_too_large
  | invalid_argument
  deriving DecidableEq

/-- Modelled from the spec: a decoded finite float `(sign, mantissa,
binary_exponent)` (§3 "Decoded float"), standing for
`(-1)^sign * mantissa * 2^exponent`. -/
structure Decoded where
  sign : Bool
  mantissa : Nat
  exponent : Int
  deriving DecidableEq

/-- The numerator of `|x| * 10^k` as a fraction of natural numbers. -/
def scaled_num (x : Decoded) (k : Int) : Nat :=
  x.mantissa * 2 ^ x.exponent.toNat * 10 ^ k.toNat

/-- The denominator of `|x| * 10^k` as a fraction of natural numbers. -/
def scaled_den (x : Decoded) (k : Int) : Nat :=
  2 ^ (-x.exponent).toNat * 10 ^ (-k).toNat

/-- Modelled from the spec: rounding of `num / den` to the nearest integer,
"ties-to-even" (§4.3, glossary "Ties-to-even"). -/
def round_half_even (num den : Nat) : Nat :=
  let q := num / den
  let r := num % den
  if 2 * r < den then q
  else if den < 2 * r then q + 1
  else if q % 2 = 0 then q else q + 1

/-- The number of decimal digits of `n` (1 for `n < 10`), with fuel. -/
def count_digits : Nat → Nat → Nat
  | 0, _ => 1
  | f + 1, n => if n < 10 then 1 else count_digits f (n / 10) + 1

/-- The least `k' ≥ k` with `den ≤ num * 10^k'`, with fuel. -/
def find_scale : Nat → Nat → Nat → Nat → Nat
  | 0, _, _, k => k
  | f + 1, num, den, k => if den ≤ num * 10 ^ k then k else find_scale f num den (k + 1)

/-- The decimal exponent `E` of a positive `num / den`:
`10^E ≤ num / den < 10^(E + 1)`; 0 for the value zero. -/
def decimal_exponent (num den : Nat) : Int :=
  if num = 0 then 0
  else if den ≤ num then (count_digits (num / den) (num / den) : Int) - 1
  else -(find_scale den num den 0 : Int)

/-- The character of a decimal digit. -/
def digit_char (d : Nat) : Char :=
  match d with
  | 0 => '0' | 1 => '1' | 2 => '2' | 3 => '3' | 4 => '4'
  | 5 => '5' | 6 => '6' | 7 => '7' | 8 => '8' | _ => '9'

/-- The `w` lowest decimal digits of `n`, most significant first. -/
def digits_width : Nat → Nat → List Char
  | 0, _ => []
  | w + 1, n => digits_width w (n / 10) ++ [digit_char (n % 10)]

/-- The decimal digits of `n`, without leading zeros. -/
def digits_nat (n : Nat) : List Char := digits_width (count_digits n n) n

/-- The number that a text of decimal digits denotes. -/
def digits_value (text : List Char) : Nat :=
  text.foldl (fun acc c => acc * 10 + (c.toNat - 48)) 0

/-- The sign character: written if the value is negative (§4.3). -/
def sign_text (x : Decoded) : List Char := if x.sign then ['-'] else []

/-- Modelled from the spec: the `fixed` layout with precision `P` (§4.3):
"digits placed with an explicit decimal point; with precision P, exactly P
digits follow the point, zero-padded if the exact expansion is shorter,
rounded if longer", rounding being ties-to-even. -/
def fixed_text (x : Decoded) (P : Nat) : List Char :=
  let N := round_half_even (scaled_num x P) (scaled_den x P)
  sign_text x ++ digits_nat (N / 10 ^ P) ++ ['.'] ++ digits_width P (N % 10 ^ P)

/-- A value rounded to `P + 1` significant decimal digits:
`digits * 10^(exponent - P)`. -/
structure Rounded where
  digits : Nat
  exponent : Int
  deriving DecidableEq

/-- Modelled from the spec: rounding to one digit before the point and `P`
digits after it (§4.3 `scientific`), ties-to-even; a rounding up to `10^(P+1)`
is carried into a new leading digit and the next exponent. -/
def round_scientific (x : Decoded) (P : Nat) : Rounded :=
  let E := decimal_exponent (scaled_num x 0) (scaled_den x 0)
  let N := round_half_even (scaled_num x ((P : Int) - E)) (scaled_den x ((P : Int) - E))
  if N = 10 ^ (P + 1) then ⟨10 ^ P, E + 1⟩ else ⟨N, E⟩

/-- The text of a decimal exponent: its sign and at least two digits, as in the
expected strings of the tests (`e+09`, `e-15`, `e+00`). -/
def exponent_text (E : Int) : List Char :=
  (if E < 0 then ['-'] else ['+'])
    ++ digits_width (max 2 (count_digits E.natAbs E.natAbs)) E.natAbs

/-- Modelled from the spec: the `scientific` layout with precision `P` (§4.3):
"exactly one digit before the point, P digits after, signed exponent after
`e`". -/
def scientific_text (x : Decoded) (P : Nat) : List Char :=
  let r := round_scientific x P
  sign_text x ++ digits_width 1 (r.digits / 10 ^ P) ++ ['.']
    ++ digits_width P (r.digits % 10 ^ P) ++ ['e'] ++ exponent_text r.exponent

/-- Removal of the zeros at the end of a fractional part. -/
def trim_zeros (frac : List Char) : List Char :=
  (frac.reverse.dropWhile (fun c => c == '0')).reverse

/-- A decimal point followed by the fractional digits, or nothing when there
are none left. -/
def point_text (frac : List Char) : List Char :=
  if frac = [] then [] else '.' :: frac

/-- Modelled from the spec: the `general` layout with a significant-digit budget
`P` (§3, §4.3): scientific when the decimal exponent is outside a window,
fixed otherwise, trailing fractional zeros trimmed. The spec calls the window
"format-defined"; its bounds `-4 ≤ E < P` are those that the expected strings
of `test_round_9` determine. -/
def general_text (x : Decoded) (P : Nat) : List Char :=
  let p := max P 1
  let r := round_scientific x (p - 1)
  if -4 ≤ r.exponent ∧ r.exponent < (p : Int) then
    let f := ((p : Int) - 1 - r.exponent).toNat
    sign_text x ++ digits_nat (r.digits / 10 ^ f)
      ++ point_text (trim_zeros (digits_width f (r.digits % 10 ^ f)))
  else
    sign_text x ++ digits_width 1 (r.digits / 10 ^ (p - 1))
      ++ point_text (trim_zeros (digits_width (p - 1) (r.digits % 10 ^ (p - 1))))
      ++ ['e'] ++ exponent_text r.exponent

/-- Modelled from the spec: the result of `to_chars`, the characters written
and the error (§3 "Conversion result"). -/
structure to_chars_result where
  written : List Char
  ec : errc
  deriving DecidableEq

/-- Modelled from the spec: `to_chars(buffer_begin, buffer_end, value, format,
precision)` for the decimal formats, on a buffer of `capacity` characters
(§6). "If the caller-supplied buffer is too small to hold the result, nothing
is written past the buffer end and an `invalid_argument`/length error is
reported" (§4.3). The `hex` layout is not described to the digit and is left
out: it writes nothing and reports `invalid_argument` here. -/
def to_chars (capacity : Nat) (x : Decoded) (fmt : chars_format) (precision : Nat) :
    to_chars_result :=
  match fmt with
  | chars_format.hex => ⟨[], errc.invalid_argument⟩
  | chars_format.fixed =>
    if (fixed_text x precision).length ≤ capacity then ⟨fixed_text x precision, errc.success⟩
    else ⟨[], errc.invalid_argument⟩
  | chars_format.scientific =>
    if (scientific_text x precision).length ≤ capacity then
      ⟨scientific_text x precision, errc.success⟩
    else ⟨[], errc.invalid_argument⟩
  | chars_format.general =>
    if (general_text x precision).length ≤ capacity then
      ⟨general_text x precision, errc.success⟩
    else ⟨[], errc.invalid_argument⟩

/-! ### Parsing: `from_chars` -/

/-- Modelled from the spec: a target float type, by its mantissa width in bits
and the least and greatest binary exponent of its normal values ("IEEE-754
single/double/extended representations", §1). -/
structure FloatType where
  precision : Nat
  emin : Int
  emax : Int
  deriving DecidableEq

/-- The type `float`. -/
def binary32 : FloatType := ⟨24, -126, 127⟩

/-- The type `double`. -/
def binary64 : FloatType := ⟨53, -1022, 1023⟩

/-- The type `long double` in its 80-bit extended representation. -/
def extended80 : FloatType := ⟨64, -16382, 16383⟩

/-- The type `__float128`. -/
def binary128 : FloatType := ⟨113, -16382, 16383⟩

/-- Modelled from the spec: a floating literal read by `from_chars` (§4.4):
"optional sign, digits, optional fractional part, optional exponent marker
`e`/`p` with signed integer exponent". Its exact value is
`(-1)^sign * significand * 10^exp10 * 2^exp2`; `length` is the number of
characters it takes. -/
structure Literal where
  sign : Bool
  significand : Nat
  exp10 : Int
  exp2 : Int
  length : Nat
  deriving DecidableEq

/-- The numerator of the magnitude of a literal. -/
def Literal.num (l : Literal) : Nat := l.significand * 10 ^ l.exp10.toNat * 2 ^ l.exp2.toNat

/-- The denominator of the magnitude of a literal. -/
def Literal.den (l : Literal) : Nat := 10 ^ (-l.exp10).toNat * 2 ^ (-l.exp2).toNat

/-- The value of a decimal or hexadecimal digit character. -/
def digit_value (hex : Bool) (c : Char) : Option Nat :=
  if '0' ≤ c ∧ c ≤ '9' then some (c.toNat - 48)
  else if hex ∧ 'a' ≤ c ∧ c ≤ 'f' then some (c.toNat - 87)
  else if hex ∧ 'A' ≤ c ∧ c ≤ 'F' then some (c.toNat - 55)
  else none

/-- The longest run of digits at the start of a text: the number it denotes
after the digits already read (`acc`), how many digits it has, and the rest
of the text. -/
def read_digits (hex : Bool) : List Char → Nat → Nat → Nat × Nat × List Char
  | [], acc, n => (acc, n, [])
  | c :: cs, acc, n =>
    match digit_value hex c with
    | some d => read_digits hex cs (acc * (if hex then 16 else 10) + d) (n + 1)
    | none => (acc, n, c :: cs)

/-- An optional sign character at the start of a text. -/
def read_sign : List Char → Bool × List Char
  | '-' :: cs => (true, cs)
  | '+' :: cs => (false, cs)
  | cs => (false, cs)

/-- The optional exponent part: the marker (`e` for the decimal formats, `p`
for `hex`), an optional sign and at least one decimal digit. Without such a
part the exponent is 0 and nothing is read. -/
def read_exponent (hex : Bool) (text : List Char) : Int × List Char :=
  match text with
  | [] => (0, [])
  | c :: cs =>
    if (hex ∧ (c = 'p' ∨ c = 'P')) ∨ (¬ hex ∧ (c = 'e' ∨ c = 'E')) then
      let s := read_sign cs
      let d := read_digits false s.2 0 0
      if d.2.1 = 0 then (0, c :: cs)
      else (if s.1 then -(d.1 : Int) else (d.1 : Int), d.2.2)
    else (0, c :: cs)

/-- Modelled from the spec: the literal at the start of a text, if there is
one (§4.4); the digits are hexadecimal and the exponent binary in the `hex`
format. -/
def parse_literal (fmt : chars_format) (text : List Char) : Option Literal :=
  let hex := decide (fmt = chars_format.hex)
  let s := read_sign text
  let i := read_digits hex s.2 0 0
  let f := match i.2.2 with
    | '.' :: cs => read_digits hex cs i.1 0
    | cs => (i.1, 0, cs)
  if i.2.1 + f.2.1 = 0 then none
  else
    let e := read_exponent hex f.2.2
    some {
      sign := s.1
      significand := f.1
      exp10 := if hex then 0 else e.1 - (f.2.1 : Int)
      exp2 := if hex then e.1 - 4 * (f.2.1 : Int) else 0
      length := text.length - e.2.length }

/-- Modelled from the spec: the magnitude of the literal "exceeds the
representable range of the target float type" (§4.4): it is greater than the
greatest finite value `(2^p - 1) * 2^(emax - p + 1)`. -/
def too_large (T : FloatType) (l : Literal) : Bool :=
  decide ((2 ^ T.precision - 1) * 2 ^ (T.emax - T.precision + 1).toNat * l.den
    < l.num * 2 ^ (-(T.emax - T.precision + 1)).toNat)

/-- Modelled from the spec: the magnitude of a non-zero literal is "very small"
(§7), below the least positive value `2^(emin - p + 1)` of the type. -/
def too_small (T : FloatType) (l : Literal) : Bool :=
  decide (0 < l.num ∧
    l.num * 2 ^ (-(T.emin - T.precision + 1)).toNat
      < 2 ^ (T.emin - T.precision + 1).toNat * l.den)

/-- The number of binary digits of `n` (1 for `n < 2`), with fuel. -/
def count_bits : Nat → Nat → Nat
  | 0, _ => 1
  | f + 1, n => if n < 2 then 1 else count_bits f (n / 2) + 1

/-- The least `k' ≥ k` with `den ≤ num * 2^k'`, with fuel. -/
def find_scale2 : Nat → Nat → Nat → Nat → Nat
  | 0, _, _, k => k
  | f + 1, num, den, k => if den ≤ num * 2 ^ k then k else find_scale2 f num den (k + 1)

/-- The binary exponent `e` of a positive `num / den`:
`2^e ≤ num / den < 2^(e + 1)`. -/
def binary_exponent (num den : Nat) : Int :=
  if den ≤ num then (count_bits (num / den) (num / den) : Int) - 1
  else -(find_scale2 den num den 0 : Int)

/-- Modelled from the spec: "the nearest representable binary float" of an
in-range literal (§4.4), ties broken "toward the representable value with an
even trailing mantissa bit". -/
def nearest (T : FloatType) (l : Literal) : Decoded :=
  if l.num = 0 then ⟨l.sign, 0, 0⟩
  else
    let e := binary_exponent l.num l.den
    let q := max (e - T.precision + 1) (T.emin - T.precision + 1)
    ⟨l.sign, round_half_even (l.num * 2 ^ (-q).toNat) (l.den * 2 ^ q.toNat), q⟩

/-- Modelled from the spec: the result of `from_chars`: the output value after
the call, the error, and the position where parsing stopped (§3, §6). -/
structure from_chars_result where
  value : Decoded
  ec : errc
  stopped : Nat
  deriving DecidableEq

/-- Modelled from the spec: `from_chars(text_begin, text_end, out value,
format)` (§4.4, §6). Without a literal at the start it reports
`invalid_argument`. When the literal is out of range it must "leave the
output value unchanged from its pre-call state, report `value_too_large`, and
still advance the returned position past the full literal". Otherwise the
output becomes the nearest representable float. -/
def from_chars (T : FloatType) (text : List Char) (value : Decoded) (fmt : chars_format) :
    from_chars_result :=
  match parse_literal fmt text with
  | none => ⟨value, errc.invalid_argument, 0⟩
  | some l =>
    if too_large T l ∨ too_small T l then ⟨value, errc.value_too_large, l.length⟩
    else ⟨nearest T l, errc.success, l.length⟩

/-! ### The values used by the tests -/

/-- The `double` written `1e15` in `test_values_with_positive_exp`. -/
def double_1e15 : Decoded := ⟨false, 8000000000000000, -3⟩

/-- The `double` written `1e-15` in `test_values_with_negative_exp`,
`0x1.203af9ee75616p-50`. -/
def double_1e_minus_15 : Decoded := ⟨false, 5070602400912918, -102⟩

/-- The `double` written `999999999.999999` in `test_round_9`,
`0x1.dcd64fffffff8p+29`. -/
def double_999999999_999999 : Decoded := ⟨false, 8388607999999992, -23⟩

/-- The `double` written `9.999999` in `test_round_9`, `0x1.3ffffde7210bfp+3`. -/
def double_9_999999 : Decoded := ⟨false, 5629498971263167, -49⟩

/-- The `double` written `0.00009999999` in `test_round_9`,
`0x1.a36e2bf21436ap-14`. -/
def double_0_00009999999 : Decoded := ⟨false, 7378696891614058, -66⟩

/-- The value 42 that `overflow_spot_value` stores before the call. -/
def value_42 : Decoded := ⟨false, 42, 0⟩

namespace uint128

/-! ## Basic facts about the representation -/

theorem ext_words {x y : uint128} (hh : x.high = y.high) (hl : x.low = y.low) : x = y := by
  cases x; cases y; simp_all

theorem val_lt (x : uint128) : x.val < 2 ^ 128 := by
  have := x.high_lt; have := x.low_lt
  unfold val; omega

theorem val_inj {x y : uint128} (h : x.val = y.val) : x = y := by
  have := x.high_lt; have := x.low_lt; have := y.high_lt; have := y.low_lt
  unfold val at h
  apply ext_words <;> omega

theorem mk64_high (h l : Nat) : (mk64 h l).high = h % 2 ^ 64 := rfl

theorem mk64_low (h l : Nat) : (mk64 h l).low = l % 2 ^ 64 := rfl

/-! ## Word arithmetic behind the shifts -/

theorem pow_split (n : Nat) (hn : n ≤ 64) : 2 ^ (64 - n) * 2 ^ n = 2 ^ 64 := by
  rw [← pow_add]; congr 1; omega

theorem or_disjoint (h l n : Nat) (hn : n ≤ 64) (hl : l < 2 ^ 64) :
    (h <<< n) % 2 ^ 64 ||| (l >>> (64 - n)) = (h * 2 ^ n) % 2 ^ 64 + l / 2 ^ (64 - n) := by
  have hs := pow_split n hn
  have hs2 := pow_split (64 - n) (by omega)
  have e : 64 - (64 - n) = n := by omega
  rw [e] at hs2
  rw [Nat.shiftLeft_eq, Nat.shiftRight_eq_div_pow]
  have h1 : (h * 2 ^ n) % 2 ^ 64 = 2 ^ n * (h % 2 ^ (64 - n)) := by
    rw [← hs, Nat.mul_mod_mul_right, Nat.mul_comm]
  have h2 : l / 2 ^ (64 - n) < 2 ^ n := by
    apply Nat.div_lt_of_lt_mul
    rw [hs]; exact hl
  rw [h1, Nat.mul_add_lt_is_or h2]

theorem shl_val_aux (h l n : Nat) (hn : n ≤ 64) :
    ((h * 2 ^ 64 + l) * 2 ^ n) % 2 ^ 128 =
      ((h * 2 ^ n) % 2 ^ 64 + l / 2 ^ (64 - n)) % 2 ^ 64 * 2 ^ 64 + (l * 2 ^ n) % 2 ^ 64 := by
  have hs := pow_split n hn
  have h128 : (2:Nat) ^ 128 = 2 ^ 64 * 2 ^ 64 := by norm_num
  have hx : (h * 2 ^ 64 + l) * 2 ^ n = l * 2 ^ n + 2 ^ 64 * (h * 2 ^ n) := by ring
  rw [h128, Nat.mod_mul, hx, Nat.add_mul_mod_self_left, Nat.add_mul_div_left _ _ (by positivity)]
  have hd : l * 2 ^ n / 2 ^ 64 = l / 2 ^ (64 - n) := by
    rw [← hs, Nat.mul_div_mul_right _ _ (by positivity)]
  rw [hd, Nat.add_comm (l / _), Nat.mod_add_mod]
  ring

theorem shl_val_aux_hi (h l k : Nat) :
    ((h * 2 ^ 64 + l) * 2 ^ (64 + k)) % 2 ^ 128 = (l * 2 ^ k) % 2 ^ 64 * 2 ^ 64 := by
  have h128 : (2:Nat) ^ 128 = 2 ^ 64 * 2 ^ 64 := by norm_num
  have hx : (h * 2 ^ 64 + l) * 2 ^ (64 + k) = (l * 2 ^ k + 2 ^ 64 * (h * 2 ^ k)) * 2 ^ 64 := by
    rw [pow_add]; ring
  rw [h128, hx, Nat.mul_mod_mul_right, Nat.add_mul_mod_self_left]

theorem shr_or_disjoint (h l n : Nat) (hn : n ≤ 64) (hl : l < 2 ^ 64) :
    (l >>> n) ||| (h <<< (64 - n)) % 2 ^ 64 = (h % 2 ^ n) * 2 ^ (64 - n) + l / 2 ^ n := by
  have h0 := or_disjoint h l (64 - n) (by omega) hl
  have e : 64 - (64 - n) = n := by omega
  rw [e] at h0
  have hs := pow_split n hn
  rw [Nat.lor_comm, h0, ← hs, Nat.mul_comm (2 ^ (64 - n)) (2 ^ n), Nat.mul_mod_mul_right]

theorem shr_val_aux (h l n : Nat) (hn : n ≤ 64) (hl : l < 2 ^ 64) :
    (h * 2 ^ 64 + l) / 2 ^ n = (h / 2 ^ n) * 2 ^ 64 + ((h % 2 ^ n) * 2 ^ (64 - n) + l / 2 ^ n) ∧
    (h % 2 ^ n) * 2 ^ (64 - n) + l / 2 ^ n < 2 ^ 64 := by
  have hs := pow_split n hn
  have hp : 0 < 2 ^ n := by positivity
  constructor
  · have hx : h * 2 ^ 64 + l = l + 2 ^ n * (h * 2 ^ (64 - n)) := by
      rw [← hs]; ring
    rw [hx, Nat.add_mul_div_left _ _ hp]
    conv_lhs => rw [← Nat.div_add_mod h (2 ^ n)]
    rw [← hs]; ring
  · have h1 : h % 2 ^ n < 2 ^ n := Nat.mod_lt _ hp
    have h2 : l / 2 ^ n < 2 ^ (64 - n) := by
      apply Nat.div_lt_of_lt_mul
      rw [Nat.mul_comm, hs]; exact hl
    have h3 : (h % 2 ^ n + 1) * 2 ^ (64 - n) ≤ 2 ^ n * 2 ^ (64 - n) :=
      Nat.mul_le_mul_right _ h1
    rw [Nat.mul_comm (2 ^ n), hs] at h3
    have h4 : (h % 2 ^ n + 1) * 2 ^ (64 - n) = (h % 2 ^ n) * 2 ^ (64 - n) + 2 ^ (64 - n) := by ring
    omega

theorem shr_val_aux_hi (h l k : Nat) (hl : l < 2 ^ 64) :
    (h * 2 ^ 64 + l) / 2 ^ (64 + k) = h / 2 ^ k := by
  rw [pow_add, ← Nat.div_div_eq_div_mul]
  congr 1
  omega

/-! ## Values of the operators -/

theorem val_mk64 (h l : Nat) : (mk64 h l).val = h % 2 ^ 64 * 2 ^ 64 + l % 2 ^ 64 := rfl

theorem val_add (a b : uint128) : (add a b).val = (a.val + b.val) % 2 ^ 128 := by
  have := a.high_lt; have := a.low_lt; have := b.high_lt; have := b.low_lt
  unfold add val
  simp only [mk64_high, mk64_low, add64]
  split <;> simp only [mk64_high, mk64_low] <;> omega

theorem val_sub (a b : uint128) : (sub a b).val = (a.val + 2 ^ 128 - b.val) % 2 ^ 128 := by
  have := a.high_lt; have := a.low_lt; have := b.high_lt; have := b.low_lt
  unfold sub val
  simp only [mk64_high, mk64_low, sub64]
  split <;> simp only [mk64_high, mk64_low] <;> omega

theorem val_shl (x : uint128) (n : Nat) (hn : n < 128) :
    (shl x n).val = (x.val * 2 ^ n) % 2 ^ 128 := by
  have := x.low_lt
  unfold shl
  split
  · obtain ⟨k, rfl⟩ : ∃ k, n = 64 + k := ⟨n - 64, by omega⟩
    rw [val, mk64_high, mk64_low, val, shl_val_aux_hi, shl64, Nat.shiftLeft_eq]
    simp
  · split
    · subst n; have := val_lt x; simp; omega
    · rw [val, mk64_high, mk64_low, val, shl_val_aux _ _ _ (by omega), or64, shl64, shr64,
        or_disjoint _ _ _ (by omega) this, shl64, Nat.shiftLeft_eq]
      simp

theorem val_shr (x : uint128) (n : Nat) (hn : n < 128) :
    (shr x n).val = x.val / 2 ^ n := by
  have hl := x.low_lt; have hh := x.high_lt
  unfold shr
  split
  · obtain ⟨k, rfl⟩ : ∃ k, n = 64 + k := ⟨n - 64, by omega⟩
    rw [val, mk64_high, mk64_low, val, shr_val_aux_hi _ _ _ hl, shr64,
      Nat.shiftRight_eq_div_pow]
    have e : 64 + k - 64 = k := by omega
    have hd : x.high / 2 ^ k < 2 ^ 64 := Nat.lt_of_le_of_lt (Nat.div_le_self _ _) hh
    rw [e, Nat.mod_eq_of_lt hd]
    simp
  · split
    · subst n; simp
    · rename_i h1 h2
      have hx := shr_val_aux x.high x.low n (by omega) x.low_lt
      rw [val, mk64_high, mk64_low, val, hx.1, or64, shr64, shl64, shr64,
        shr_or_disjoint _ _ _ (by omega) x.low_lt, Nat.shiftRight_eq_div_pow,
        Nat.mod_eq_of_lt hx.2]
      have hd : x.high / 2 ^ n < 2 ^ 64 := Nat.lt_of_le_of_lt (Nat.div_le_self _ _) hh
      rw [Nat.mod_eq_of_lt hd]

theorem val_ofUnsigned (v : Nat) (hv : v < 2 ^ 64) : (ofUnsigned v).val = v := by
  unfold ofUnsigned
  rw [val_mk64, Nat.mod_eq_of_lt hv]
  simp

theorem val_mul (a b : uint128) : (mul a b).val = (a.val * b.val) % 2 ^ 128 := by
  have hal := a.low_lt; have hbl := b.low_lt
  have h32 : (2 : Nat) ^ 64 = 2 ^ 32 * 2 ^ 32 := by norm_num
  have ha1 : a.low / 2 ^ 32 < 2 ^ 32 := Nat.div_lt_of_lt_mul (by omega)
  have hb1 : b.low / 2 ^ 32 < 2 ^ 32 := Nat.div_lt_of_lt_mul (by omega)
  have ha2 : a.low % 2 ^ 32 < 2 ^ 32 := Nat.mod_lt _ (by norm_num)
  have hb2 : b.low % 2 ^ 32 < 2 ^ 32 := Nat.mod_lt _ (by norm_num)
  have had : a.low / 2 ^ 32 * (b.low % 2 ^ 32) < 2 ^ 64 := by
    rw [h32]; exact Nat.mul_lt_mul'' ha1 hb2
  have hbc : a.low % 2 ^ 32 * (b.low / 2 ^ 32) < 2 ^ 64 := by
    rw [h32]; exact Nat.mul_lt_mul'' ha2 hb1
  have hbd : a.low % 2 ^ 32 * (b.low % 2 ^ 32) < 2 ^ 64 := by
    rw [h32]; exact Nat.mul_lt_mul'' ha2 hb2
  have hll : a.low * b.low =
      a.low / 2 ^ 32 * (b.low / 2 ^ 32) * 2 ^ 64
        + (a.low / 2 ^ 32 * (b.low % 2 ^ 32) + a.low % 2 ^ 32 * (b.low / 2 ^ 32)) * 2 ^ 32
        + a.low % 2 ^ 32 * (b.low % 2 ^ 32) := by
    conv_lhs => rw [← Nat.div_add_mod a.low (2 ^ 32), ← Nat.div_add_mod b.low (2 ^ 32)]
    ring
  have hprod : a.val * b.val =
      a.high * b.high * 2 ^ 128 + (a.high * b.low + a.low * b.high) * 2 ^ 64 + a.low * b.low := by
    unfold val; ring
  unfold mul
  simp only [shr64, and64, UINT32_MAX, Nat.and_pow_two_sub_one_eq_mod, Nat.shiftRight_eq_div_pow]
  rw [val_add, val_add, val_shl _ _ (by norm_num), val_shl _ _ (by norm_num)]
  simp only [mul64, add64, Nat.mod_eq_of_lt had, Nat.mod_eq_of_lt hbc]
  rw [val_ofUnsigned _ had, val_ofUnsigned _ hbc, val_mk64, hprod, hll]
  omega

theorem eq_iff (x y : uint128) : eq x y = true ↔ x = y := by
  constructor
  · intro h
    simp only [eq, Bool.and_eq_true, beq_iff_eq] at h
    exact ext_words h.1 h.2
  · rintro rfl
    simp [eq]

theorem lt_iff (x y : uint128) : lt x y = true ↔ x.val < y.val := by
  have := x.high_lt; have := x.low_lt; have := y.high_lt; have := y.low_lt
  unfold lt val
  split <;> rename_i h <;> simp only [beq_iff_eq] at h <;> simp only [decide_eq_true_eq] <;> omega

theorem ge_iff (x y : uint128) : ge x y = true ↔ y.val ≤ x.val := by
  unfold ge
  rw [Bool.not_eq_true', ← Bool.not_eq_true, lt_iff]
  omega

theorem sub_self (a : uint128) : sub a a = mk64 0 0 := by
  apply val_inj
  have := val_lt a
  rw [val_sub, val_mk64]
  omega

theorem div_shortcuts_lhs (s : DivState) (rhs : uint128) : (div_shortcuts s rhs).lhs = s.lhs := by
  unfold div_shortcuts
  split
  · rfl
  · split <;> rfl

/-- Dividing a value by itself: one pass of the loop, which subtracts. -/
theorem div_impl_self (a q r : uint128) : div_impl a a q r = (mk64 0 1, mk64 0 0) := by
  have hge : ge a a = true := (ge_iff a a).2 (Nat.le_refl _)
  have hs : shl a 0 = a := by simp [shl]
  have hq : or (shl (ofUnsigned 0) 1) (mk64 0 1) = mk64 0 1 := by decide
  simp [div_impl, div_general, div_loop, div_step, div_shortcuts_lhs, hge, hs, hq, sub_self]

theorem val_ofSigned_one : (ofSigned 1).val = 1 := by decide

theorem val_ofSigned_zero : (ofSigned 0).val = 0 := by decide

/-! ## Division and modulo -/

set_option maxRecDepth 100000 in
/-- C1: `operator/` and `operator%` are not the Euclidean quotient and remainder
for every non-zero divisor. For `a = 2^126` and `b = 2^127 + 1` the adjusted
shift is 33, `b << 33` wraps to `2^33`, and the loop returns the quotient
`2^34 - 1` (not 0) and the remainder `2^126 - (2^34 - 1)` (not `2^126`). -/
theorem div_mod_not_euclidean_at_2_126 :
    (mk64 (2 ^ 63) 1).val ≠ 0 ∧
    (div (mk64 (2 ^ 62) 0) (mk64 (2 ^ 63) 1)).val = 2 ^ 34 - 1 ∧
    (mk64 (2 ^ 62) 0).val / (mk64 (2 ^ 63) 1).val = 0 ∧
    (mod (mk64 (2 ^ 62) 0) (mk64 (2 ^ 63) 1)).val = 2 ^ 126 - (2 ^ 34 - 1) ∧
    (mk64 (2 ^ 62) 0).val % (mk64 (2 ^ 63) 1).val = 2 ^ 126 := by
  decide

/-! ## Multiplication -/

/-- C2: `operator*` is multiplication modulo `2^128`. -/
theorem mul_is_product_mod_2_128 (a b : uint128) :
    (mul a b).val = (a.val * b.val) % 2 ^ 128 :=
  val_mul a b

/-! ## Addition and subtraction -/

/-- C3: `operator+` is addition modulo `2^128`; the test `temp.low < lhs.low`
holds exactly when the low words overflow, and the high word then receives a
carry of exactly 1. -/
theorem add_is_sum_mod_2_128 (a b : uint128) :
    (add a b).val = (a.val + b.val) % 2 ^ 128 ∧
    ((mk64 (add64 a.high b.high) (add64 a.low b.low)).low < a.low ↔ 2 ^ 64 ≤ a.low + b.low) ∧
    (add a b).high = (a.high + b.high + (if 2 ^ 64 ≤ a.low + b.low then 1 else 0)) % 2 ^ 64 ∧
    (add a b).low = (a.low + b.low) % 2 ^ 64 := by
  have := a.high_lt; have := a.low_lt; have := b.high_lt; have := b.low_lt
  refine ⟨val_add a b, ?_, ?_, ?_⟩
  · simp only [mk64_low, add64]; omega
  · unfold add
    simp only [mk64_high, mk64_low, add64]
    split <;> split <;> simp only [mk64_high, mk64_low] <;> omega
  · unfold add
    simp only [mk64_high, mk64_low, add64]
    split <;> simp only [mk64_high, mk64_low] <;> omega

/-- C4: `operator-` is subtraction modulo `2^128`; the high word is decremented
by a borrow of exactly 1 when `a.low < b.low`, and by nothing otherwise. -/
theorem sub_is_difference_mod_2_128 (a b : uint128) :
    ((sub a b).val : Int) = ((a.val : Int) - (b.val : Int)) % 2 ^ 128 ∧
    ((sub a b).high : Int) =
      ((a.high : Int) - (b.high : Int) - (if a.low < b.low then 1 else 0)) % 2 ^ 64 ∧
    ((sub a b).low : Int) = ((a.low : Int) - (b.low : Int)) % 2 ^ 64 := by
  have := a.high_lt; have := a.low_lt; have := b.high_lt; have := b.low_lt
  have := val_lt a; have := val_lt b
  have e128 : (2 : Int) ^ 128 = 340282366920938463463374607431768211456 := by norm_num
  have e64 : (2 : Int) ^ 64 = 18446744073709551616 := by norm_num
  rw [e128, e64]
  refine ⟨?_, ?_, ?_⟩
  · rw [val_sub]; omega
  · unfold sub
    simp only [mk64_high, mk64_low, sub64]
    split <;> simp only [mk64_high, mk64_low] <;> omega
  · unfold sub
    simp only [mk64_high, mk64_low, sub64]
    split <;> simp only [mk64_high, mk64_low] <;> omega

/-! ## Shifts -/

/-- C5: for a shift amount `n < 128`, `x << n` is `val x * 2^n` modulo `2^128`;
`x << 0` is `x`, and for `64 ≤ n` the low word is 0 and the high word is
`x.low << (n - 64)` reduced to 64 bits. -/
theorem shl_is_mul_pow_mod_2_128 (x : uint128) (n : Nat) (hn : n < 128) :
    (shl x n).val = (x.val * 2 ^ n) % 2 ^ 128 ∧
    eq (shl x 0) x = true ∧
    (64 ≤ n → (shl x n).low = 0 ∧ (shl x n).high = (x.low * 2 ^ (n - 64)) % 2 ^ 64) := by
  refine ⟨val_shl x n hn, ?_, ?_⟩
  · rw [eq_iff]; simp [shl]
  · intro h
    have h1 : n ≥ 64 := h
    simp [shl, h1, mk64_low, mk64_high, shl64, Nat.shiftLeft_eq]

/-- C5, at `x = (1, 3)` and `n = 70`. -/
theorem shl_is_mul_pow_mod_2_128_witness :
    70 < 128 ∧
    ((shl (mk64 1 3) 70).val = ((mk64 1 3).val * 2 ^ 70) % 2 ^ 128 ∧
     eq (shl (mk64 1 3) 0) (mk64 1 3) = true ∧
     (64 ≤ 70 → (shl (mk64 1 3) 70).low = 0 ∧
       (shl (mk64 1 3) 70).high = ((mk64 1 3).low * 2 ^ (70 - 64)) % 2 ^ 64)) :=
  ⟨by decide, shl_is_mul_pow_mod_2_128 (mk64 1 3) 70 (by decide)⟩

/-- C6: for a shift amount `n < 128`, `x >> n` is `val x / 2^n` rounded down;
`x >> 0` is `x`, and for `64 ≤ n` the high word is 0 and the low word is
`x.high >> (n - 64)`. -/
theorem shr_is_div_pow (x : uint128) (n : Nat) (hn : n < 128) :
    (shr x n).val = x.val / 2 ^ n ∧
    eq (shr x 0) x = true ∧
    (64 ≤ n → (shr x n).high = 0 ∧ (shr x n).low = x.high / 2 ^ (n - 64)) := by
  refine ⟨val_shr x n hn, ?_, ?_⟩
  · rw [eq_iff]; simp [shr]
  · intro h
    have h1 : n ≥ 64 := h
    have hd : x.high / 2 ^ (n - 64) < 2 ^ 64 := Nat.lt_of_le_of_lt (Nat.div_le_self _ _) x.high_lt
    simp [shr, h1, mk64_low, mk64_high, shr64, Nat.shiftRight_eq_div_pow, Nat.mod_eq_of_lt hd]
    exact hd

/-- C6, at `x = (5, 3)` and `n = 65`. -/
theorem shr_is_div_pow_witness :
    65 < 128 ∧
    ((shr (mk64 5 3) 65).val = (mk64 5 3).val / 2 ^ 65 ∧
     eq (shr (mk64 5 3) 0) (mk64 5 3) = true ∧
     (64 ≤ 65 → (shr (mk64 5 3) 65).high = 0 ∧
       (shr (mk64 5 3) 65).low = (mk64 5 3).high / 2 ^ (65 - 64))) :=
  ⟨by decide, shr_is_div_pow (mk64 5 3) 65 (by decide)⟩

/-! ## Division by a greater or an equal value -/

set_option maxRecDepth 100000 in
/-- C7: a divisor greater than the dividend does not always give quotient 0 and
remainder `a`. For `a = 2^95` and `b = 2^96 + 1` we have `b > a`, and the loop
of `div_impl` returns the quotient `2^34 - 1` and the remainder
`2^95 - (2^34 - 1)`. -/
theorem div_by_greater_not_zero_at_2_95 :
    gt (mk64 (2 ^ 32) 1) (mk64 (2 ^ 31) 0) = true ∧
    (div (mk64 (2 ^ 31) 0) (mk64 (2 ^ 32) 1)).val = 2 ^ 34 - 1 ∧
    eq (div (mk64 (2 ^ 31) 0) (mk64 (2 ^ 32) 1)) (ofUnsigned 0) = false ∧
    (mod (mk64 (2 ^ 31) 0) (mk64 (2 ^ 32) 1)).val = 2 ^ 95 - (2 ^ 34 - 1) ∧
    eq (mod (mk64 (2 ^ 31) 0) (mk64 (2 ^ 32) 1)) (mk64 (2 ^ 31) 0) = false := by
  decide

/-- C8: for a non-zero `a`, `a / a == 1` and `a % a == 0`. -/
theorem div_self_is_one (a : uint128) (_ha : a.val ≠ 0) :
    eq (div a a) (ofSigned 1) = true ∧ eq (mod a a) (ofSigned 0) = true ∧
    (div a a).val = 1 ∧ (mod a a).val = 0 := by
  have h1 : div a a = mk64 0 1 := by unfold div; rw [div_impl_self]
  have h2 : mod a a = mk64 0 0 := by unfold mod; rw [div_impl_self]
  rw [h1, h2]
  decide

/-- C8, at `a = (5, 7)`. -/
theorem div_self_is_one_witness :
    (mk64 5 7).val ≠ 0 ∧
    (eq (div (mk64 5 7) (mk64 5 7)) (ofSigned 1) = true ∧
     eq (mod (mk64 5 7) (mk64 5 7)) (ofSigned 0) = true ∧
     (div (mk64 5 7) (mk64 5 7)).val = 1 ∧ (mod (mk64 5 7) (mk64 5 7)).val = 0) :=
  ⟨by decide, div_self_is_one (mk64 5 7) (by decide)⟩

/-! ## Arithmetic laws -/

/-- C9: `(a + b) - b == a` for all `a`, `b`, also when the sum wraps. -/
theorem add_then_sub_cancels (a b : uint128) : eq (sub (add a b) b) a = true := by
  rw [eq_iff]
  apply val_inj
  have := val_lt a; have := val_lt b
  rw [val_sub, val_add]
  omega

/-- C10: `uint128(1)` is a two-sided identity of `operator*`. -/
theorem mul_one_is_identity (a : uint128) :
    eq (mul a (ofSigned 1)) a = true ∧ eq (mul (ofSigned 1) a) a = true := by
  have := val_lt a
  constructor <;>
  · rw [eq_iff]
    apply val_inj
    rw [val_mul, val_ofSigned_one]
    simp only [Nat.mul_one, Nat.one_mul]
    exact Nat.mod_eq_of_lt (val_lt a)

/-! ## Facts about the widening multiplications -/

theorem limbs_lt (x : Nat) (hx : x < 2 ^ 64) : x / 2 ^ 32 < 2 ^ 32 ∧ x % 2 ^ 32 < 2 ^ 32 := by
  omega

theorem limb_mul_le (a b : Nat) (ha : a < 2 ^ 32) (hb : b < 2 ^ 32) :
    a * b ≤ 18446744065119617025 := by
  have h := Nat.mul_le_mul (Nat.le_of_lt_succ (m := a) (n := 4294967295) (by omega))
    (Nat.le_of_lt_succ (m := b) (n := 4294967295) (by omega))
  omega

theorem limbs_product (x y : Nat) :
    x * y = x / 2 ^ 32 * (y / 2 ^ 32) * 2 ^ 64
      + (x / 2 ^ 32 * (y % 2 ^ 32) + x % 2 ^ 32 * (y / 2 ^ 32)) * 2 ^ 32
      + x % 2 ^ 32 * (y % 2 ^ 32) := by
  conv_lhs => rw [← Nat.div_add_mod x (2 ^ 32), ← Nat.div_add_mod y (2 ^ 32)]
  ring

theorem umul128_portable_words (x y : Nat) (hx : x < 2 ^ 64) (hy : y < 2 ^ 64) :
    (umul128_portable x y).high = x * y / 2 ^ 64 ∧
    (umul128_portable x y).low = x * y % 2 ^ 64 := by
  have hxl := limbs_lt x hx
  have hyl := limbs_lt y hy
  have hac := limb_mul_le _ _ hxl.1 hyl.1
  have had := limb_mul_le _ _ hxl.1 hyl.2
  have hbc := limb_mul_le _ _ hxl.2 hyl.1
  have hbd := limb_mul_le _ _ hxl.2 hyl.2
  have hprod := limbs_product x y
  simp only [umul128_portable, cast32, shr64, shl64, umul64, mul64, add64,
    Nat.shiftRight_eq_div_pow, Nat.shiftLeft_eq, mk64_high, mk64_low,
    Nat.mod_eq_of_lt hxl.1, Nat.mod_eq_of_lt hyl.1]
  rw [hprod]
  constructor <;> omega

theorem mul_lt_2_128 (x y : Nat) (hx : x < 2 ^ 64) (hy : y < 2 ^ 64) :
    x * y ≤ 340282366920938463426481119284349108225 := by
  have h := Nat.mul_le_mul (Nat.le_of_lt_succ (m := x) (n := 18446744073709551615) (by omega))
    (Nat.le_of_lt_succ (m := y) (n := 18446744073709551615) (by omega))
  omega

theorem umul128_native_words (x y : Nat) (hx : x < 2 ^ 64) (hy : y < 2 ^ 64) :
    (umul128_native x y).high = x * y / 2 ^ 64 ∧
    (umul128_native x y).low = x * y % 2 ^ 64 := by
  have h := mul_lt_2_128 x y hx hy
  simp only [umul128_native, mk64_high, mk64_low, Nat.shiftRight_eq_div_pow]
  constructor <;> omega

theorem umul128_words (c : Bool) (x y : Nat) (hx : x < 2 ^ 64) (hy : y < 2 ^ 64) :
    (umul128 c x y).high = x * y / 2 ^ 64 ∧ (umul128 c x y).low = x * y % 2 ^ 64 := by
  cases c
  · exact umul128_portable_words x y hx hy
  · exact umul128_native_words x y hx hy

theorem val_umul128 (c : Bool) (x y : Nat) (hx : x < 2 ^ 64) (hy : y < 2 ^ 64) :
    (umul128 c x y).val = x * y := by
  have h := umul128_words c x y hx hy
  rw [val, h.1, h.2]
  omega

theorem umul128_upper64_portable_eq (x y : Nat) (hx : x < 2 ^ 64) (hy : y < 2 ^ 64) :
    umul128_upper64_portable x y = x * y / 2 ^ 64 := by
  have h := (umul128_portable_words x y hx hy).1
  have e : (umul128_portable x y).high = umul128_upper64_portable x y % 2 ^ 64 := rfl
  have hlt : umul128_upper64_portable x y < 2 ^ 64 := Nat.mod_lt _ (by norm_num)
  rw [← h, e, Nat.mod_eq_of_lt hlt]

theorem umul128_upper64_eq (c : Bool) (x y : Nat) (hx : x < 2 ^ 64) (hy : y < 2 ^ 64) :
    umul128_upper64 c x y = x * y / 2 ^ 64 := by
  cases c
  · exact umul128_upper64_portable_eq x y hx hy
  · have h := mul_lt_2_128 x y hx hy
    simp only [umul128_upper64, umul128_upper64_native, Nat.shiftRight_eq_div_pow, if_true]
    omega

theorem val_add_assign_u64 (r : uint128) (n : Nat) (hn : n < 2 ^ 64) :
    (add_assign_u64 r n).val = (r.val + n) % 2 ^ 128 := by
  have := r.high_lt; have := r.low_lt
  simp only [add_assign_u64, val, mk64_high, mk64_low, add64]
  split <;> omega

theorem umul96_upper64_portable_eq (x y : Nat) (hx : x < 2 ^ 32) (hy : y < 2 ^ 64) :
    umul96_upper64_portable x y = x * y / 2 ^ 32 ∧
    x * cast32 (shr64 y 32) + shr64 (x * cast32 y) 32 < 2 ^ 64 := by
  have hyl := limbs_lt y hy
  have hh := limb_mul_le _ _ hx hyl.1
  have hl := limb_mul_le _ _ hx hyl.2
  have hprod : x * y = x * (y / 2 ^ 32) * 2 ^ 32 + x * (y % 2 ^ 32) := by
    conv_lhs => rw [← Nat.div_add_mod y (2 ^ 32)]
    ring
  simp only [umul96_upper64_portable, cast32, shr64, umul64, mul64, add64,
    Nat.shiftRight_eq_div_pow, Nat.mod_eq_of_lt hyl.1]
  rw [hprod]
  constructor <;> omega

theorem shl64_32 (x : Nat) (hx : x < 2 ^ 32) : shl64 x 32 = x * 2 ^ 32 := by
  simp only [shl64, Nat.shiftLeft_eq]
  omega

theorem umul96_upper64_first_eq (c : Bool) (x y : Nat) (hx : x < 2 ^ 32) (hy : y < 2 ^ 64) :
    umul128_upper64 c (shl64 x 32) y = x * y / 2 ^ 32 := by
  have hs := shl64_32 x hx
  have hlt : shl64 x 32 < 2 ^ 64 := by rw [hs]; omega
  rw [umul128_upper64_eq c _ y hlt hy, hs]
  have e : x * 2 ^ 32 * y = x * y * 2 ^ 32 := by ring
  have e64 : (2 : Nat) ^ 64 = 2 ^ 32 * 2 ^ 32 := by norm_num
  rw [e, e64, Nat.mul_div_mul_right _ _ (by norm_num)]

theorem countl_zero_bits_spec (k x : Nat) (hx : x < 2 ^ k) (h0 : x ≠ 0) :
    countl_zero_bits k x < k ∧ 2 ^ (k - 1 - countl_zero_bits k x) ≤ x ∧
      x < 2 ^ (k - countl_zero_bits k x) := by
  induction k with
  | zero => simp at hx; exact absurd hx h0
  | succ k ih =>
    unfold countl_zero_bits
    split
    · rename_i h
      refine ⟨by omega, ?_, ?_⟩
      · simpa using h
      · simpa using hx
    · rename_i h
      have ih := ih (by omega)
      have e1 : k + 1 - 1 - (countl_zero_bits k x + 1) = k - 1 - countl_zero_bits k x := by omega
      have e2 : k + 1 - (countl_zero_bits k x + 1) = k - countl_zero_bits k x := by omega
      rw [e1, e2]
      exact ⟨by omega, ih.2.1, ih.2.2⟩

theorem countl_zero_spec (x : Nat) (hx : x < 2 ^ 64) (h0 : x ≠ 0) :
    countl_zero x ≤ 63 ∧ 2 ^ (63 - countl_zero x) ≤ x ∧ x < 2 ^ (64 - countl_zero x) := by
  have h := countl_zero_bits_spec 64 x hx h0
  unfold countl_zero
  exact ⟨by omega, h.2.1, h.2.2⟩

/-- The value of `high_bit` on a non-zero argument, as a natural number. -/
theorem high_bit_spec (v : uint128) (hv : v.val ≠ 0) :
    ∃ k : Nat, high_bit v = (k : Int) ∧ k ≤ 127 ∧ 2 ^ k ≤ v.val ∧ v.val < 2 ^ (k + 1) := by
  have hh := v.high_lt
  have hl := v.low_lt
  unfold high_bit
  split
  · rename_i h
    have hc := countl_zero_spec v.high hh h
    refine ⟨127 - countl_zero v.high, by omega, by omega, ?_, ?_⟩
    · have e : 127 - countl_zero v.high = (63 - countl_zero v.high) + 64 := by omega
      rw [e, pow_add]
      have := Nat.mul_le_mul_right (2 ^ 64) hc.2.1
      unfold val; omega
    · have e : 127 - countl_zero v.high + 1 = (64 - countl_zero v.high) + 64 := by omega
      rw [e, pow_add]
      have := Nat.mul_le_mul_right (2 ^ 64) (Nat.succ_le_of_lt hc.2.2)
      unfold val
      have e2 : (v.high + 1) * 2 ^ 64 = v.high * 2 ^ 64 + 2 ^ 64 := by ring
      omega
  · rename_i h
    have h' : v.high = 0 := by simpa using h
    split
    · rename_i hlow
      have hc := countl_zero_spec v.low hl hlow
      refine ⟨63 - countl_zero v.low, by omega, by omega, ?_, ?_⟩
      · unfold val; rw [h']; simpa using hc.2.1
      · have e : 63 - countl_zero v.low + 1 = 64 - countl_zero v.low := by omega
        unfold val; rw [h', e]; simpa using hc.2.2
    · rename_i hlow
      have hlow' : v.low = 0 := by simpa using hlow
      exact absurd (by unfold val; rw [h', hlow']; norm_num) hv

/-! ## Comparisons -/

/-- C11: against a negative value `n` of a signed built-in type, `x > n`,
`x >= n` and `x != n` are true and `x == n`, `x < n`, `x <= n` are false for
every `x`, also for `x = uint128(n)`. -/
theorem negative_rhs_compares_below (x : uint128) (n : Int) (hn : n < 0) :
    gt_signed x n = true ∧ ge_signed x n = true ∧ ne_signed x n = true ∧
    eq_signed x n = false ∧ lt_signed x n = false ∧ le_signed x n = false ∧
    eq_signed (ofSigned n) n = false := by
  have h1 : ¬ (n ≥ 0) := by omega
  have h2 : ¬ (n > 0) := by omega
  simp [gt_signed, ge_signed, ne_signed, eq_signed, lt_signed, le_signed, hn, h1, h2]

/-- C11, at `x = uint128(-1)` and `n = -1`. -/
theorem negative_rhs_compares_below_witness :
    (-1 : Int) < 0 ∧
    (gt_signed (ofSigned (-1)) (-1) = true ∧ ge_signed (ofSigned (-1)) (-1) = true ∧
     ne_signed (ofSigned (-1)) (-1) = true ∧ eq_signed (ofSigned (-1)) (-1) = false ∧
     lt_signed (ofSigned (-1)) (-1) = false ∧ le_signed (ofSigned (-1)) (-1) = false ∧
     eq_signed (ofSigned (-1)) (-1) = false) :=
  ⟨by decide, negative_rhs_compares_below (ofSigned (-1)) (-1) (by decide)⟩

/-- C12: construction and assignment from a signed built-in integer `n` give
`low = n mod 2^64` and `high = 2^64 - 1` for `n < 0`, else 0, so the value is
`n mod 2^128`; from an unsigned `m` they give `high = 0` and `low = m`. -/
theorem construct_from_integer (self : uint128) (n : Int) (m : Nat)
    (hlo : -(2 ^ 63) ≤ n) (hhi : n < 2 ^ 63) (hm : m < 2 ^ 64) :
    ((ofSigned n).low : Int) = n % 2 ^ 64 ∧
    (ofSigned n).high = (if n < 0 then 2 ^ 64 - 1 else 0) ∧
    ((ofSigned n).val : Int) = n % 2 ^ 128 ∧
    assign_signed self n = ofSigned n ∧
    (ofUnsigned m).high = 0 ∧ (ofUnsigned m).low = m ∧
    assign_unsigned self m = ofUnsigned m := by
  have e63 : (2 : Int) ^ 63 = 9223372036854775808 := by norm_num
  have e64 : (2 : Int) ^ 64 = 18446744073709551616 := by norm_num
  have e128 : (2 : Int) ^ 128 = 340282366920938463463374607431768211456 := by norm_num
  rw [e63] at hlo hhi
  refine ⟨?_, ?_, ?_, rfl, rfl, ?_, rfl⟩
  · simp only [ofSigned, mk64_low, e64]
    omega
  · simp only [ofSigned, mk64_high, UINT64_MAX]
    split <;> simp
  · simp only [ofSigned, val, mk64_high, mk64_low, UINT64_MAX, e64, e128]
    split <;> omega
  · simp only [ofUnsigned, mk64_low]
    omega

/-- C12, at `n = -5` and `m = 7`. -/
theorem construct_from_integer_witness :
    (-(2 ^ 63) ≤ (-5 : Int) ∧ (-5 : Int) < 2 ^ 63 ∧ 7 < 2 ^ 64) ∧
    (((ofSigned (-5)).low : Int) = (-5) % 2 ^ 64 ∧
     (ofSigned (-5)).high = (if (-5 : Int) < 0 then 2 ^ 64 - 1 else 0) ∧
     ((ofSigned (-5)).val : Int) = (-5) % 2 ^ 128 ∧
     assign_signed (mk64 1 2) (-5) = ofSigned (-5) ∧
     (ofUnsigned 7).high = 0 ∧ (ofUnsigned 7).low = 7 ∧
     assign_unsigned (mk64 1 2) 7 = ofUnsigned 7) :=
  ⟨by decide, construct_from_integer (mk64 1 2) (-5) 7 (by decide) (by decide) (by decide)⟩

/-- C13: the comparisons of two `uint128` are the numeric order on `val`, and
exactly one of `a < b`, `a == b`, `a > b` holds. -/
theorem comparisons_are_order_on_val (a b : uint128) :
    (lt a b = true ↔ a.val < b.val) ∧ (le a b = true ↔ a.val ≤ b.val) ∧
    (gt a b = true ↔ a.val > b.val) ∧ (ge a b = true ↔ a.val ≥ b.val) ∧
    (eq a b = true ↔ a.val = b.val) ∧ (ne a b = true ↔ a.val ≠ b.val) ∧
    ((lt a b = true ∧ eq a b = false ∧ gt a b = false) ∨
     (lt a b = false ∧ eq a b = true ∧ gt a b = false) ∨
     (lt a b = false ∧ eq a b = false ∧ gt a b = true)) := by
  have hlt := lt_iff a b
  have hgt : gt a b = true ↔ b.val < a.val := lt_iff b a
  have heq : eq a b = true ↔ a.val = b.val :=
    ⟨fun h => congrArg val ((eq_iff a b).1 h), fun h => (eq_iff a b).2 (val_inj h)⟩
  have hle : le a b = true ↔ a.val ≤ b.val := by
    unfold le
    rw [Bool.not_eq_true', ← Bool.not_eq_true, lt_iff]
    omega
  have hne : ne a b = true ↔ a.val ≠ b.val := by
    unfold ne
    rw [Bool.not_eq_true', ← Bool.not_eq_true, heq]
  refine ⟨hlt, hle, hgt, ge_iff a b, heq, hne, ?_⟩
  simp only [← Bool.not_eq_true, hlt, hgt, heq]
  omega

/-! ## Bitwise AND with a built-in integer -/

/-- C19: the mixed-width `x & n` keeps the high word of `x`, so it is not
`x & uint128(n)` for an unsigned or non-negative `n`: for `x = (1, 3)` and
`n = 1` it is `(1, 1)`, and `x & uint128(1)` is `(0, 1)`. -/
theorem and_integer_keeps_high_at_1_3 :
    and_integer (mk64 1 3) 1 = mk64 1 1 ∧
    and (mk64 1 3) (ofUnsigned 1) = mk64 0 1 ∧
    and (mk64 1 3) (ofSigned 1) = mk64 0 1 ∧
    eq (and_integer (mk64 1 3) 1) (and (mk64 1 3) (ofUnsigned 1)) = false ∧
    (and_integer (mk64 1 3) 1).high = 1 := by
  decide

/-! ## Widening multiplication -/

/-- C14: on 64-bit operands the portable branch of `umul128` returns words with
`high * 2^64 + low = x * y`, equal to the result of the native branch; the
four limb products and the three 64-bit sums of the branch stay below `2^64`. -/
theorem umul128_portable_is_exact (x y : Nat) (hx : x < 2 ^ 64) (hy : y < 2 ^ 64) :
    (umul128 false x y).high * 2 ^ 64 + (umul128 false x y).low = x * y ∧
    umul128 false x y = umul128 true x y ∧
    cast32 (shr64 x 32) * cast32 (shr64 y 32) < 2 ^ 64 ∧
    cast32 x * cast32 (shr64 y 32) < 2 ^ 64 ∧
    cast32 (shr64 x 32) * cast32 y < 2 ^ 64 ∧
    cast32 x * cast32 y < 2 ^ 64 ∧
    shr64 (umul64 (cast32 x) (cast32 y)) 32 + cast32 (umul64 (cast32 (shr64 x 32)) (cast32 y))
      + cast32 (umul64 (cast32 x) (cast32 (shr64 y 32))) < 2 ^ 64 ∧
    umul64 (cast32 (shr64 x 32)) (cast32 (shr64 y 32)) + shr64 (umul128_intermediate x y) 32
      + shr64 (umul64 (cast32 (shr64 x 32)) (cast32 y)) 32
      + shr64 (umul64 (cast32 x) (cast32 (shr64 y 32))) 32 < 2 ^ 64 ∧
    shl64 (umul128_intermediate x y) 32 + cast32 (umul64 (cast32 x) (cast32 y)) < 2 ^ 64 := by
  have hp := umul128_words false x y hx hy
  have hn := umul128_words true x y hx hy
  have hxl := limbs_lt x hx
  have hyl := limbs_lt y hy
  have hac := limb_mul_le _ _ hxl.1 hyl.1
  have had := limb_mul_le _ _ hxl.1 hyl.2
  have hbc := limb_mul_le _ _ hxl.2 hyl.1
  have hbd := limb_mul_le _ _ hxl.2 hyl.2
  have hprod := limbs_product x y
  have hxy := mul_lt_2_128 x y hx hy
  refine ⟨?_, ?_, ?_⟩
  · rw [hp.1, hp.2]; omega
  · exact ext_words (hp.1.trans hn.1.symm) (hp.2.trans hn.2.symm)
  · simp only [umul128_intermediate, cast32, shr64, shl64, umul64, mul64, add64,
      Nat.shiftRight_eq_div_pow, Nat.shiftLeft_eq, Nat.mod_eq_of_lt hxl.1,
      Nat.mod_eq_of_lt hyl.1]
    rw [hprod] at hxy
    refine ⟨?_, ?_, ?_, ?_, ?_, ?_, ?_⟩ <;> omega

/-- C14, at `x = 2^64 - 1` and `y = 2^64 - 1`. -/
theorem umul128_portable_is_exact_witness :
    (2 ^ 64 - 1 < 2 ^ 64) ∧
    (umul128 false (2 ^ 64 - 1) (2 ^ 64 - 1)).high * 2 ^ 64
      + (umul128 false (2 ^ 64 - 1) (2 ^ 64 - 1)).low = (2 ^ 64 - 1) * (2 ^ 64 - 1) ∧
    umul128 false (2 ^ 64 - 1) (2 ^ 64 - 1) = umul128 true (2 ^ 64 - 1) (2 ^ 64 - 1) :=
  ⟨by decide,
    (umul128_portable_is_exact (2 ^ 64 - 1) (2 ^ 64 - 1) (by decide) (by decide)).1,
    (umul128_portable_is_exact (2 ^ 64 - 1) (2 ^ 64 - 1) (by decide) (by decide)).2.1⟩

/-- C15: on both branches `umul128_upper64(x, y)` is the high word of
`umul128(x, y)` and equals `x * y / 2^64` rounded down. -/
theorem umul128_upper64_is_high_word (c : Bool) (x y : Nat) (hx : x < 2 ^ 64) (hy : y < 2 ^ 64) :
    umul128_upper64 c x y = (umul128 c x y).high ∧
    umul128_upper64 c x y = x * y / 2 ^ 64 ∧
    umul128_upper64 false x y = umul128_upper64 true x y := by
  refine ⟨?_, umul128_upper64_eq c x y hx hy, ?_⟩
  · rw [umul128_upper64_eq c x y hx hy, (umul128_words c x y hx hy).1]
  · rw [umul128_upper64_eq false x y hx hy, umul128_upper64_eq true x y hx hy]

/-- C15, at `x = 2^64 - 1`, `y = 2^63 + 5` on the portable branch. -/
theorem umul128_upper64_is_high_word_witness :
    (2 ^ 64 - 1 < 2 ^ 64 ∧ 2 ^ 63 + 5 < 2 ^ 64) ∧
    (umul128_upper64 false (2 ^ 64 - 1) (2 ^ 63 + 5)
        = (umul128 false (2 ^ 64 - 1) (2 ^ 63 + 5)).high ∧
     umul128_upper64 false (2 ^ 64 - 1) (2 ^ 63 + 5) = (2 ^ 64 - 1) * (2 ^ 63 + 5) / 2 ^ 64 ∧
     umul128_upper64 false (2 ^ 64 - 1) (2 ^ 63 + 5)
        = umul128_upper64 true (2 ^ 64 - 1) (2 ^ 63 + 5)) :=
  ⟨by decide,
    umul128_upper64_is_high_word false (2 ^ 64 - 1) (2 ^ 63 + 5) (by decide) (by decide)⟩

/-- C16: `umul192_upper128(x, y)` is `x * val y / 2^64` rounded down, the upper
128 bits of the 192-bit product, and its final addition does not wrap. -/
theorem umul192_upper128_is_upper (c : Bool) (x : Nat) (y : uint128) (hx : x < 2 ^ 64) :
    (umul192_upper128 c x y).val = x * y.val / 2 ^ 64 ∧
    (umul128 c x y.high).val + umul128_upper64 c x y.low < 2 ^ 128 := by
  have h1 := val_umul128 c x y.high hx y.high_lt
  have h2 := umul128_upper64_eq c x y.low hx y.low_lt
  have hb := mul_lt_2_128 x y.high hx y.high_lt
  have hl := mul_lt_2_128 x y.low hx y.low_lt
  have hu : x * y.low / 2 ^ 64 < 2 ^ 64 := by omega
  have hxy : x * y.val = x * y.high * 2 ^ 64 + x * y.low := by unfold val; ring
  rw [h1, h2]
  refine ⟨?_, by omega⟩
  unfold umul192_upper128
  simp only []
  rw [val_add_assign_u64 _ _ (by rw [h2]; exact hu), h1, h2, hxy]
  omega

/-- C16, at `x = 2^64 - 1` and `y = (2^64 - 1, 2^64 - 1)` on the portable
branch. -/
theorem umul192_upper128_is_upper_witness :
    (2 ^ 64 - 1 < 2 ^ 64) ∧
    ((umul192_upper128 false (2 ^ 64 - 1) (mk64 (2 ^ 64 - 1) (2 ^ 64 - 1))).val
        = (2 ^ 64 - 1) * (mk64 (2 ^ 64 - 1) (2 ^ 64 - 1)).val / 2 ^ 64 ∧
     (umul128 false (2 ^ 64 - 1) (mk64 (2 ^ 64 - 1) (2 ^ 64 - 1)).high).val
        + umul128_upper64 false (2 ^ 64 - 1) (mk64 (2 ^ 64 - 1) (2 ^ 64 - 1)).low < 2 ^ 128) :=
  ⟨by decide, umul192_upper128_is_upper false (2 ^ 64 - 1) (mk64 (2 ^ 64 - 1) (2 ^ 64 - 1))
    (by decide)⟩

/-- C17: `umul192_lower128(x, y)` is `x * val y` modulo `2^128`, the lower 128
bits of the 192-bit product, and equals `uint128(0, x) * y`. -/
theorem umul192_lower128_is_lower (c : Bool) (x : Nat) (y : uint128) (hx : x < 2 ^ 64) :
    (umul192_lower128 c x y).val = (x * y.val) % 2 ^ 128 ∧
    eq (umul192_lower128 c x y) (mul (mk64 0 x) y) = true := by
  have h := umul128_words c x y.low hx y.low_lt
  have hxy : x * y.val = x * y.high * 2 ^ 64 + x * y.low := by unfold val; ring
  have hv : (umul192_lower128 c x y).val = (x * y.val) % 2 ^ 128 := by
    simp only [umul192_lower128, val_mk64, add64, mul64, h.1, h.2]
    rw [hxy]
    omega
  refine ⟨hv, ?_⟩
  rw [eq_iff]
  apply val_inj
  have hm : (mk64 0 x).val = x := by
    rw [val_mk64, Nat.mod_eq_of_lt hx]; simp
  rw [hv, val_mul, hm]

/-- C17, at `x = 2^64 - 1` and `y = (2^64 - 1, 2^64 - 1)` on the portable
branch. -/
theorem umul192_lower128_is_lower_witness :
    (2 ^ 64 - 1 < 2 ^ 64) ∧
    ((umul192_lower128 false (2 ^ 64 - 1) (mk64 (2 ^ 64 - 1) (2 ^ 64 - 1))).val
        = ((2 ^ 64 - 1) * (mk64 (2 ^ 64 - 1) (2 ^ 64 - 1)).val) % 2 ^ 128 ∧
     eq (umul192_lower128 false (2 ^ 64 - 1) (mk64 (2 ^ 64 - 1) (2 ^ 64 - 1)))
        (mul (mk64 0 (2 ^ 64 - 1)) (mk64 (2 ^ 64 - 1) (2 ^ 64 - 1))) = true) :=
  ⟨by decide, umul192_lower128_is_lower false (2 ^ 64 - 1) (mk64 (2 ^ 64 - 1) (2 ^ 64 - 1))
    (by decide)⟩

/-- C18: `umul96_upper64(x, y)` is `x * y / 2^32` rounded down on both of its
branches, `umul96_lower64(x, y)` is `x * y` modulo `2^64`, and the sum of the
portable branch stays below `2^64`, as does `x << 32`. -/
theorem umul96_is_product_parts (c : Bool) (x y : Nat) (hx : x < 2 ^ 32) (hy : y < 2 ^ 64) :
    umul96_upper64 c x y = x * y / 2 ^ 32 ∧
    x * y / 2 ^ 32 < 2 ^ 64 ∧
    umul96_lower64 x y = (x * y) % 2 ^ 64 ∧
    umul128_upper64 c (shl64 x 32) y = umul96_upper64_portable x y ∧
    x * 2 ^ 32 < 2 ^ 64 ∧
    x * cast32 (shr64 y 32) + shr64 (x * cast32 y) 32 < 2 ^ 64 := by
  have hp := umul96_upper64_portable_eq x y hx hy
  have hf := umul96_upper64_first_eq c x y hx hy
  have hf1 := umul96_upper64_first_eq true x y hx hy
  refine ⟨?_, ?_, rfl, by rw [hf, hp.1], by omega, hp.2⟩
  · cases c
    · simpa [umul96_upper64] using hp.1
    · simpa [umul96_upper64] using hf1
  · rw [← hp.1]
    exact Nat.mod_lt _ (by norm_num)

/-- C18, at `x = 2^32 - 1` and `y = 2^64 - 1` on the portable branch. -/
theorem umul96_is_product_parts_witness :
    (2 ^ 32 - 1 < 2 ^ 32 ∧ 2 ^ 64 - 1 < 2 ^ 64) ∧
    (umul96_upper64 false (2 ^ 32 - 1) (2 ^ 64 - 1) = (2 ^ 32 - 1) * (2 ^ 64 - 1) / 2 ^ 32 ∧
     (2 ^ 32 - 1) * (2 ^ 64 - 1) / 2 ^ 32 < 2 ^ 64 ∧
     umul96_lower64 (2 ^ 32 - 1) (2 ^ 64 - 1) = ((2 ^ 32 - 1) * (2 ^ 64 - 1)) % 2 ^ 64 ∧
     umul128_upper64 false (shl64 (2 ^ 32 - 1) 32) (2 ^ 64 - 1)
        = umul96_upper64_portable (2 ^ 32 - 1) (2 ^ 64 - 1) ∧
     (2 ^ 32 - 1) * 2 ^ 32 < 2 ^ 64 ∧
     (2 ^ 32 - 1) * cast32 (shr64 (2 ^ 64 - 1) 32)
        + shr64 ((2 ^ 32 - 1) * cast32 (2 ^ 64 - 1)) 32 < 2 ^ 64) :=
  ⟨by decide, umul96_is_product_parts false (2 ^ 32 - 1) (2 ^ 64 - 1) (by decide) (by decide)⟩

/-! ## The highest set bit -/

/-- C20: for a non-zero `v`, `high_bit(v)` lies in `[0, 127]` and
`2^high_bit(v) ≤ val v < 2^(high_bit(v) + 1)`; and `high_bit(0)` is 0. -/
theorem high_bit_is_top_bit_index (v : uint128) (hv : v.val ≠ 0) :
    0 ≤ high_bit v ∧ high_bit v ≤ 127 ∧
    2 ^ (high_bit v).toNat ≤ v.val ∧ v.val < 2 ^ ((high_bit v).toNat + 1) ∧
    high_bit (mk64 0 0) = 0 := by
  obtain ⟨k, hk, hk127, hlo, hhi⟩ := high_bit_spec v hv
  rw [hk]
  refine ⟨by omega, by omega, ?_, ?_, by decide⟩
  · simpa using hlo
  · simpa using hhi

/-- C20, at `v = (5, 0)`, whose highest set bit is bit 66. -/
theorem high_bit_is_top_bit_index_witness :
    (mk64 5 0).val ≠ 0 ∧
    (0 ≤ high_bit (mk64 5 0) ∧ high_bit (mk64 5 0) ≤ 127 ∧
     2 ^ (high_bit (mk64 5 0)).toNat ≤ (mk64 5 0).val ∧
     (mk64 5 0).val < 2 ^ ((high_bit (mk64 5 0)).toNat + 1) ∧
     high_bit (mk64 0 0) = 0) :=
  ⟨by decide, high_bit_is_top_bit_index (mk64 5 0) (by decide)⟩

/-! ## The loop of `div_impl` -/

/-- The loop of `div_general` runs `div_iterations` times on `rhs << div_shift`. -/
theorem div_general_eq (s : DivState) (rhs : uint128) :
    div_general s rhs =
      { div_loop (div_iterations s.lhs rhs)
          { lhs := s.lhs, denom := shl rhs (div_shift s.lhs rhs).toNat,
            quotient := ofUnsigned 0, remainder := s.remainder } with
        remainder := (div_loop (div_iterations s.lhs rhs)
          { lhs := s.lhs, denom := shl rhs (div_shift s.lhs rhs).toNat,
            quotient := ofUnsigned 0, remainder := s.remainder }).lhs } := rfl

/-- C21: the loop of `div_impl` can run more than 128 times. For `lhs = 1` and
`rhs = 2^127`, `high_bit(lhs) - high_bit(rhs) = -127`, the adjusted shift is
`32 + 127 = 159` and the loop count is 160. -/
theorem div_iterations_160_at_1_over_2_127 :
    high_bit (mk64 0 1) - high_bit (mk64 (2 ^ 63) 0) = -127 ∧
    div_shift (mk64 0 1) (mk64 (2 ^ 63) 0) = 159 ∧
    div_iterations (mk64 0 1) (mk64 (2 ^ 63) 0) = 160 ∧
    ¬ div_iterations (mk64 0 1) (mk64 (2 ^ 63) 0) ≤ 128 := by
  decide

/-! ## Facts about the loop of `div_impl`, increment and decrement -/

theorem div_step_remainder (s : DivState) (r : uint128) :
    div_step { s with remainder := r } = { div_step s with remainder := r } := by
  unfold div_step
  simp only []
  split <;> rfl

theorem div_loop_remainder (n : Nat) (s : DivState) (r : uint128) :
    div_loop n { s with remainder := r } = { div_loop n s with remainder := r } := by
  induction n generalizing s with
  | zero => rfl
  | succ n ih =>
    simp only [div_loop]
    rw [div_step_remainder, ih]

/-- The results of the general part depend on `lhs` and `rhs` only. -/
theorem div_general_results (s : DivState) (rhs : uint128) :
    (div_general s rhs).quotient =
      (div_loop (div_iterations s.lhs rhs)
        { lhs := s.lhs, denom := shl rhs (div_shift s.lhs rhs).toNat,
          quotient := ofUnsigned 0, remainder := s.lhs }).quotient ∧
    (div_general s rhs).remainder =
      (div_loop (div_iterations s.lhs rhs)
        { lhs := s.lhs, denom := shl rhs (div_shift s.lhs rhs).toNat,
          quotient := ofUnsigned 0, remainder := s.lhs }).lhs := by
  rw [div_general_eq]
  have h := div_loop_remainder (div_iterations s.lhs rhs)
    { lhs := s.lhs, denom := shl rhs (div_shift s.lhs rhs).toNat,
      quotient := ofUnsigned 0, remainder := s.lhs } s.remainder
  simp only [] at h
  rw [h]
  exact ⟨rfl, rfl⟩

theorem div_impl_eq_general (lhs rhs q r q' r' : uint128) :
    div_impl lhs rhs q r =
      ((div_general ⟨lhs, rhs, q', r'⟩ rhs).quotient,
       (div_general ⟨lhs, rhs, q', r'⟩ rhs).remainder) := by
  have h1 := div_general_results (div_shortcuts ⟨lhs, rhs, q, r⟩ rhs) rhs
  have h2 := div_general_results ⟨lhs, rhs, q', r'⟩ rhs
  rw [div_shortcuts_lhs] at h1
  unfold div_impl
  simp only []
  rw [h1.1, h1.2, h2.1, h2.2]

theorem or64_one_even (l : Nat) (h : l % 2 = 0) : or64 l 1 = l + 1 := by
  have e : l = 2 ^ 1 * (l / 2) := by omega
  unfold or64
  rw [e, ← Nat.mul_add_lt_is_or (by norm_num) (l / 2)]

theorem val_or_one (q : uint128) (h : q.val % 2 = 0) :
    (or q (mk64 0 1)).val = q.val + 1 := by
  have hh := q.high_lt; have hl := q.low_lt
  have hlow : q.low % 2 = 0 := by unfold val at h; omega
  have e1 : (mk64 0 1).high = 0 := by decide
  have e2 : (mk64 0 1).low = 1 := by decide
  unfold or
  rw [e1, e2, or64_one_even _ hlow]
  simp only [or64, Nat.or_zero, val, mk64_high, mk64_low]
  omega

/-- One pass of the loop, on the values of its variables. -/
theorem div_step_val (s : DivState) (hq : s.quotient.val < 2 ^ 127) :
    (div_step s).denom.val = s.denom.val / 2 ∧
    (s.denom.val ≤ s.lhs.val →
      (div_step s).lhs.val = s.lhs.val - s.denom.val ∧
      (div_step s).quotient.val = 2 * s.quotient.val + 1) ∧
    (¬ s.denom.val ≤ s.lhs.val →
      (div_step s).lhs.val = s.lhs.val ∧
      (div_step s).quotient.val = 2 * s.quotient.val) := by
  have hl := val_lt s.lhs
  have hd := val_lt s.denom
  have hshl : (shl s.quotient 1).val = 2 * s.quotient.val := by
    rw [val_shl _ _ (by norm_num)]; omega
  have hshr : ∀ d : uint128, (shr d 1).val = d.val / 2 := by
    intro d; rw [val_shr _ _ (by norm_num)]; norm_num
  unfold div_step
  simp only []
  by_cases hge : s.denom.val ≤ s.lhs.val
  · have hge' : ge s.lhs s.denom = true := (ge_iff _ _).2 hge
    simp only [hge', if_true, hshr]
    refine ⟨trivial, fun _ => ⟨?_, ?_⟩, fun h => absurd hge h⟩
    · rw [val_sub]; omega
    · rw [val_or_one _ (by rw [hshl]; omega), hshl]
  · have hge' : ge s.lhs s.denom = false := by
      rw [← Bool.not_eq_true]
      exact fun h => hge ((ge_iff _ _).1 h)
    simp only [hge', Bool.false_eq_true, if_false, hshr]
    exact ⟨trivial, fun h => absurd h hge, fun _ => ⟨trivial, hshl⟩⟩

/-- The loop invariant of `div_impl`: with `n + 1` passes left, the aligned
divisor is `b * 2^n`, the rest of the dividend is below twice that, and
`A = quotient * (2 * denom) + lhs`. -/
theorem div_loop_inv (A b : Nat) (hb : 0 < b) (hA : A < 2 ^ 128) (n : Nat) (s : DivState)
    (hd : s.denom.val = b * 2 ^ n) (hl : s.lhs.val < 2 * s.denom.val)
    (hq : A = s.quotient.val * (2 * s.denom.val) + s.lhs.val) :
    A = (div_loop (n + 1) s).quotient.val * b + (div_loop (n + 1) s).lhs.val ∧
    (div_loop (n + 1) s).lhs.val < b := by
  induction n generalizing s with
  | zero =>
    have hd' : s.denom.val = b := by simpa using hd
    have hX : s.quotient.val * (2 * s.denom.val) = 2 * (s.quotient.val * b) := by
      rw [hd']; ring
    have hXle : s.quotient.val ≤ s.quotient.val * b := Nat.le_mul_of_pos_right _ hb
    have hq127 : s.quotient.val < 2 ^ 127 := by omega
    have hs := div_step_val s hq127
    simp only [div_loop]
    by_cases hge : s.denom.val ≤ s.lhs.val
    · obtain ⟨h1, h2⟩ := hs.2.1 hge
      rw [h1, h2]
      have e : (2 * s.quotient.val + 1) * b = 2 * (s.quotient.val * b) + b := by ring
      rw [e]
      omega
    · obtain ⟨h1, h2⟩ := hs.2.2 hge
      rw [h1, h2]
      have e : 2 * s.quotient.val * b = 2 * (s.quotient.val * b) := by ring
      rw [e]
      omega
  | succ n ih =>
    have hpos : 0 < b * 2 ^ n := Nat.mul_pos hb (by positivity)
    have hd2 : s.denom.val = 2 * (b * 2 ^ n) := by rw [hd, pow_succ]; ring
    have hX : s.quotient.val * (2 * s.denom.val) = 2 * (s.quotient.val * s.denom.val) := by
      ring
    have hXle : s.quotient.val ≤ s.quotient.val * s.denom.val :=
      Nat.le_mul_of_pos_right _ (by omega)
    have hq127 : s.quotient.val < 2 ^ 127 := by omega
    have hs := div_step_val s hq127
    have hden : (div_step s).denom.val = b * 2 ^ n := by rw [hs.1]; omega
    show A = (div_loop (n + 1) (div_step s)).quotient.val * b
        + (div_loop (n + 1) (div_step s)).lhs.val ∧
      (div_loop (n + 1) (div_step s)).lhs.val < b
    apply ih (div_step s) hden
    · by_cases hge : s.denom.val ≤ s.lhs.val
      · rw [(hs.2.1 hge).1, hden]; omega
      · rw [(hs.2.2 hge).1, hden]; omega
    · rw [hden]
      have hY : ∀ k : Nat, k * (2 * (b * 2 ^ n)) = k * s.denom.val := by
        intro k; rw [hd2]
      rw [hY]
      by_cases hge : s.denom.val ≤ s.lhs.val
      · rw [(hs.2.1 hge).1, (hs.2.1 hge).2]
        have e : (2 * s.quotient.val + 1) * s.denom.val
            = 2 * (s.quotient.val * s.denom.val) + s.denom.val := by ring
        rw [e]; omega
      · rw [(hs.2.2 hge).1, (hs.2.2 hge).2]
        have e : 2 * s.quotient.val * s.denom.val = 2 * (s.quotient.val * s.denom.val) := by
          ring
        rw [e]; omega

theorem high_bit_zero (a : uint128) (h : a.val = 0) : high_bit a = 0 := by
  have hh : a.high = 0 := by unfold val at h; omega
  have hl : a.low = 0 := by unfold val at h; omega
  simp [high_bit, hh, hl]

theorem high_bit_bounds (a : uint128) :
    ∃ k : Nat, high_bit a = (k : Int) ∧ k ≤ 127 ∧ a.val < 2 ^ (k + 1) ∧
      (a.val ≠ 0 → 2 ^ k ≤ a.val) := by
  by_cases h : a.val = 0
  · exact ⟨0, by simpa using high_bit_zero a h, by omega, by rw [h]; norm_num,
      fun h' => absurd h h'⟩
  · obtain ⟨k, hk, hk127, hlo, hhi⟩ := high_bit_spec a h
    exact ⟨k, hk, hk127, hhi, fun _ => hlo⟩

theorem high_bit_mono (a b : uint128) (hb : b.val ≠ 0) (hle : b.val ≤ a.val) :
    high_bit b ≤ high_bit a := by
  obtain ⟨ka, hka, _, hahi, _⟩ := high_bit_bounds a
  obtain ⟨kb, hkb, _, _, hblo⟩ := high_bit_bounds b
  have h1 : 2 ^ kb < 2 ^ (ka + 1) := Nat.lt_of_le_of_lt (Nat.le_trans (hblo hb) hle) hahi
  have h2 : kb < ka + 1 := (Nat.pow_lt_pow_iff_right (by norm_num)).1 h1
  rw [hka, hkb]
  omega

/-- The general loop divides correctly when `high_bit(b) ≤ high_bit(a)`. -/
theorem div_impl_euclid (a b q0 r0 : uint128) (hb : b.val ≠ 0)
    (hh : high_bit b ≤ high_bit a) :
    a.val = (div_impl a b q0 r0).1.val * b.val + (div_impl a b q0 r0).2.val ∧
    (div_impl a b q0 r0).2.val < b.val := by
  obtain ⟨ka, hka, hka127, hahi, _⟩ := high_bit_bounds a
  obtain ⟨kb, hkb, _, hbhi, hblo⟩ := high_bit_bounds b
  have hblo := hblo hb
  rw [hka, hkb] at hh
  have hle : kb ≤ ka := by omega
  have hshift : div_shift a b = ((ka - kb : Nat) : Int) := by
    simp only [div_shift, hka, hkb]
    split <;> omega
  have hit : div_iterations a b = (ka - kb) + 1 := by
    simp only [div_iterations, hshift]
    omega
  have hpow : 2 ^ kb * 2 ^ (ka - kb) = 2 ^ ka := by
    rw [← pow_add]; congr 1; omega
  have hpow1 : (2 : Nat) ^ (ka + 1) = 2 * 2 ^ ka := by rw [pow_succ]; ring
  have hpow2 : (2 : Nat) ^ (kb + 1) = 2 * 2 ^ kb := by rw [pow_succ]; ring
  have h128 : (2 : Nat) ^ (ka + 1) ≤ 2 ^ 128 := Nat.pow_le_pow_right (by norm_num) (by omega)
  have hm1 : 2 ^ kb * 2 ^ (ka - kb) ≤ b.val * 2 ^ (ka - kb) := Nat.mul_le_mul_right _ hblo
  have hm2 : b.val * 2 ^ (ka - kb) < 2 ^ (kb + 1) * 2 ^ (ka - kb) :=
    Nat.mul_lt_mul_of_pos_right hbhi (by positivity)
  have hm3 : 2 ^ (kb + 1) * 2 ^ (ka - kb) = 2 * 2 ^ ka := by
    rw [hpow2, Nat.mul_assoc, hpow]
  have hden : (shl b (ka - kb)).val = b.val * 2 ^ (ka - kb) := by
    rw [val_shl _ _ (by omega)]
    exact Nat.mod_eq_of_lt (by omega)
  have hres := div_general_results ⟨a, b, q0, r0⟩ b
  rw [div_impl_eq_general a b q0 r0 q0 r0]
  simp only [] at hres ⊢
  rw [hres.1, hres.2, hit, hshift]
  simp only [Int.toNat_ofNat]
  apply div_loop_inv a.val b.val (Nat.pos_of_ne_zero hb) (val_lt a)
  · exact hden
  · show a.val < 2 * (shl b (ka - kb)).val
    rw [hden]; omega
  · show a.val = (ofUnsigned 0).val * (2 * (shl b (ka - kb)).val) + a.val
    rw [val_ofUnsigned 0 (by norm_num)]; simp

theorem val_inc (x : uint128) : (inc x).val = (x.val + 1) % 2 ^ 128 := by
  have := x.high_lt; have := x.low_lt
  unfold inc
  split <;> rename_i h <;> simp only [UINT64_MAX] at h <;>
    simp only [val, mk64_high, mk64_low, add64] <;> omega

theorem val_dec (x : uint128) : (dec x).val = (x.val + 2 ^ 128 - 1) % 2 ^ 128 := by
  have := x.high_lt; have := x.low_lt
  unfold dec
  split <;> simp only [val, mk64_high, mk64_low, sub64, UINT64_MAX] <;> omega

/-- C27: when `b` is non-zero and `b <= a`, or more generally
`high_bit(b) <= high_bit(a)`, the shift is `high_bit(a) - high_bit(b)`, the
loop runs `shift + 1` times, and it ends with the quotient and the remainder
of the division of `val a` by `val b`. -/
theorem div_loop_is_euclidean (a b : uint128) (hb : b.val ≠ 0)
    (hh : le b a = true ∨ high_bit b ≤ high_bit a) :
    a.val = (div a b).val * b.val + (mod a b).val ∧ (mod a b).val < b.val ∧
    (div a b).val = a.val / b.val ∧ (mod a b).val = a.val % b.val ∧
    div_shift a b = high_bit a - high_bit b ∧
    div_iterations a b = (high_bit a - high_bit b).toNat + 1 := by
  have hh' : high_bit b ≤ high_bit a := by
    rcases hh with h | h
    · apply high_bit_mono a b hb
      have h' : ¬ lt a b = true := by simpa [le] using h
      rw [lt_iff] at h'
      omega
    · exact h
  have h := div_impl_euclid a b (mk64 0 0) (mk64 0 0) hb hh'
  have hs : div_shift a b = high_bit a - high_bit b := by
    simp only [div_shift]
    split <;> omega
  have hu := (Nat.div_mod_unique (Nat.pos_of_ne_zero hb)).2
    ⟨show (mod a b).val + b.val * (div a b).val = a.val by
      have e : b.val * (div a b).val = (div a b).val * b.val := Nat.mul_comm _ _
      rw [e]; exact (Nat.add_comm _ _).trans h.1.symm, h.2⟩
  refine ⟨h.1, h.2, hu.1.symm, hu.2.symm, hs, ?_⟩
  simp only [div_iterations, hs]
  omega

/-- C27, at `a = 100` and `b = 7`. -/
theorem div_loop_is_euclidean_witness :
    (mk64 0 7).val ≠ 0 ∧
    ((mk64 0 100).val = (div (mk64 0 100) (mk64 0 7)).val * (mk64 0 7).val
        + (mod (mk64 0 100) (mk64 0 7)).val ∧
     (mod (mk64 0 100) (mk64 0 7)).val < (mk64 0 7).val ∧
     (div (mk64 0 100) (mk64 0 7)).val = (mk64 0 100).val / (mk64 0 7).val ∧
     (mod (mk64 0 100) (mk64 0 7)).val = (mk64 0 100).val % (mk64 0 7).val ∧
     div_shift (mk64 0 100) (mk64 0 7) = high_bit (mk64 0 100) - high_bit (mk64 0 7) ∧
     div_iterations (mk64 0 100) (mk64 0 7)
        = (high_bit (mk64 0 100) - high_bit (mk64 0 7)).toNat + 1) :=
  ⟨by decide, div_loop_is_euclidean (mk64 0 100) (mk64 0 7) (by decide) (Or.inl (by decide))⟩

/-- C28: `div_impl` returns the quotient and the remainder of its general part
alone; what the branches `rhs > lhs` and `lhs == rhs` assign is overwritten,
and the results do not depend on the incoming `quotient` and `remainder`. -/
theorem div_impl_is_general_part (lhs rhs q r : uint128) :
    div_impl lhs rhs q r =
      ((div_general ⟨lhs, rhs, q, r⟩ rhs).quotient,
       (div_general ⟨lhs, rhs, q, r⟩ rhs).remainder) ∧
    (∀ q' r' : uint128, div_impl lhs rhs q r =
      ((div_general ⟨lhs, rhs, q', r'⟩ rhs).quotient,
       (div_general ⟨lhs, rhs, q', r'⟩ rhs).remainder)) :=
  ⟨div_impl_eq_general lhs rhs q r q r, fun q' r' => div_impl_eq_general lhs rhs q r q' r'⟩

/-! ## Increment, decrement, OR and XOR -/

/-- C29: `++x` is `val x + 1` and `--x` is `val x - 1` modulo `2^128`; the high
word changes only when the low word is `2^64 - 1` (for `++`) or 0 (for `--`);
`++` of the maximum is 0, `--` of 0 is the maximum, and `--(++x) == x`. -/
theorem inc_dec_wrap_mod_2_128 (x : uint128) :
    (inc x).val = (x.val + 1) % 2 ^ 128 ∧
    ((dec x).val : Int) = ((x.val : Int) - 1) % 2 ^ 128 ∧
    ((inc x).high ≠ x.high → x.low = 2 ^ 64 - 1) ∧
    ((dec x).high ≠ x.high → x.low = 0) ∧
    inc (mk64 UINT64_MAX UINT64_MAX) = mk64 0 0 ∧
    dec (mk64 0 0) = mk64 UINT64_MAX UINT64_MAX ∧
    eq (dec (inc x)) x = true := by
  have hh := x.high_lt; have hl := x.low_lt
  have hv := val_lt x
  have e128 : (2 : Int) ^ 128 = 340282366920938463463374607431768211456 := by norm_num
  refine ⟨val_inc x, ?_, ?_, ?_, by decide, by decide, ?_⟩
  · rw [val_dec, e128]; omega
  · intro h
    by_contra hne
    apply h
    have hne' : ¬ x.low = UINT64_MAX := by simpa [UINT64_MAX] using hne
    simp only [inc, hne', if_false, mk64_high]
    omega
  · intro h
    by_contra hne
    apply h
    simp only [dec, hne, if_false, mk64_high]
    omega
  · rw [eq_iff]
    apply val_inj
    rw [val_dec, val_inc]
    omega

/-- C30: the mixed-width `x | n` and `x ^ n` keep the high word of `x`, so for
a negative `n` they are not `x | uint128(n)` and `x ^ uint128(n)`: for
`x = (0, 0)` and `n = -1` both give `(0, 2^64 - 1)`, and the widened operations
give `(2^64 - 1, 2^64 - 1)`. -/
theorem or_xor_integer_keep_high_at_minus_1 :
    or_integer (mk64 0 0) (-1) = mk64 0 (2 ^ 64 - 1) ∧
    or (mk64 0 0) (ofSigned (-1)) = mk64 (2 ^ 64 - 1) (2 ^ 64 - 1) ∧
    eq (or_integer (mk64 0 0) (-1)) (or (mk64 0 0) (ofSigned (-1))) = false ∧
    xor_integer (mk64 0 0) (-1) = mk64 0 (2 ^ 64 - 1) ∧
    xor (mk64 0 0) (ofSigned (-1)) = mk64 (2 ^ 64 - 1) (2 ^ 64 - 1) ∧
    eq (xor_integer (mk64 0 0) (-1)) (xor (mk64 0 0) (ofSigned (-1))) = false := by
  decide

/-! ## Mixed-width comparisons with a non-negative integer -/

theorem val_ofSigned_nonneg (n : Int) (h0 : 0 ≤ n) (h1 : n < 2 ^ 63) :
    ((ofSigned n).val : Int) = n ∧ (ofSigned n).high = 0 ∧ ((ofSigned n).low : Int) = n ∧
      (cast64 n : Int) = n := by
  have e63 : (2 : Int) ^ 63 = 9223372036854775808 := by norm_num
  have e64 : (2 : Int) ^ 64 = 18446744073709551616 := by norm_num
  rw [e63] at h1
  have hn : ¬ n < 0 := by omega
  simp only [ofSigned, val, mk64_high, mk64_low, cast64, hn, if_false, e64]
  refine ⟨by omega, by omega, by omega, by omega⟩

theorem val_ofUnsigned_lt (m : Nat) (h : m < 2 ^ 64) :
    (ofUnsigned m).val = m ∧ (ofUnsigned m).high = 0 ∧ (ofUnsigned m).low = m ∧
      cast64 (m : Int) = m := by
  have e64 : (2 : Int) ^ 64 = 18446744073709551616 := by norm_num
  simp only [ofUnsigned, val, mk64_high, mk64_low, cast64, e64]
  refine ⟨by omega, by omega, by omega, by omega⟩

/-- C31: for a non-negative value `n` of a signed built-in type and a value `m`
of an unsigned one, each mixed-width comparison of `x` gives the same boolean
as the comparison of `x` with `uint128(n)`, resp. `uint128(m)`, which compares
`val x` with the number; `x < 0` is false and `x >= 0` is true. -/
theorem mixed_comparisons_agree (x : uint128) (n : Int) (m : Nat)
    (hn0 : 0 ≤ n) (hn : n < 2 ^ 63) (hm : m < 2 ^ 64) :
    (eq_signed x n = eq x (ofSigned n) ∧ ne_signed x n = ne x (ofSigned n) ∧
     lt_signed x n = lt x (ofSigned n) ∧ le_signed x n = le x (ofSigned n) ∧
     gt_signed x n = gt x (ofSigned n) ∧ ge_signed x n = ge x (ofSigned n)) ∧
    (eq_unsigned x m = eq x (ofUnsigned m) ∧ ne_unsigned x m = ne x (ofUnsigned m) ∧
     lt_unsigned x m = lt x (ofUnsigned m) ∧ le_unsigned x m = le x (ofUnsigned m) ∧
     gt_unsigned x m = gt x (ofUnsigned m) ∧ ge_unsigned x m = ge x (ofUnsigned m)) ∧
    ((eq_signed x n = true ↔ (x.val : Int) = n) ∧ (ne_signed x n = true ↔ (x.val : Int) ≠ n) ∧
     (lt_signed x n = true ↔ (x.val : Int) < n) ∧ (le_signed x n = true ↔ (x.val : Int) ≤ n) ∧
     (gt_signed x n = true ↔ (x.val : Int) > n) ∧ (ge_signed x n = true ↔ (x.val : Int) ≥ n)) ∧
    ((eq_unsigned x m = true ↔ x.val = m) ∧ (ne_unsigned x m = true ↔ x.val ≠ m) ∧
     (lt_unsigned x m = true ↔ x.val < m) ∧ (le_unsigned x m = true ↔ x.val ≤ m) ∧
     (gt_unsigned x m = true ↔ x.val > m) ∧ (ge_unsigned x m = true ↔ x.val ≥ m)) ∧
    lt_signed x 0 = false ∧ ge_signed x 0 = true ∧
    lt_unsigned x 0 = false ∧ ge_unsigned x 0 = true := by
  have hh := x.high_lt
  have hl := x.low_lt
  obtain ⟨hsv, hsh, hsl, hsc⟩ := val_ofSigned_nonneg n hn0 hn
  obtain ⟨huv, huh, hul, huc⟩ := val_ofUnsigned_lt m hm
  have hxv : x.val = x.high * 2 ^ 64 + x.low := rfl
  have e63 : (2 : Int) ^ 63 = 9223372036854775808 := by norm_num
  rw [e63] at hn
  have hn1 : ¬ n < 0 := by omega
  have hc0 : cast64 0 = 0 := by decide
  -- the numeric meaning of the signed comparisons
  have s1 : eq_signed x n = true ↔ (x.val : Int) = n := by
    simp only [eq_signed, Bool.and_eq_true, beq_iff_eq, decide_eq_true_eq]; omega
  have s3 : lt_signed x n = true ↔ (x.val : Int) < n := by
    simp only [lt_signed, Bool.and_eq_true, beq_iff_eq, decide_eq_true_eq]; omega
  have s4 : le_signed x n = true ↔ (x.val : Int) ≤ n := by
    simp only [le_signed, Bool.and_eq_true, beq_iff_eq, decide_eq_true_eq]; omega
  have s5 : gt_signed x n = true ↔ (x.val : Int) > n := by
    simp only [gt_signed, Bool.or_eq_true, decide_eq_true_eq]; omega
  have s6 : ge_signed x n = true ↔ (x.val : Int) ≥ n := by
    simp only [ge_signed, Bool.or_eq_true, decide_eq_true_eq]; omega
  have s2 : ne_signed x n = true ↔ (x.val : Int) ≠ n := by
    unfold ne_signed; rw [Bool.not_eq_true', ← Bool.not_eq_true, s1]
  -- the numeric meaning of the unsigned comparisons
  have u1 : eq_unsigned x m = true ↔ x.val = m := by
    simp only [eq_unsigned, Bool.and_eq_true, beq_iff_eq, huc]; omega
  have u3 : lt_unsigned x m = true ↔ x.val < m := by
    simp only [lt_unsigned, Bool.and_eq_true, beq_iff_eq, decide_eq_true_eq, huc]; omega
  have u4 : le_unsigned x m = true ↔ x.val ≤ m := by
    simp only [le_unsigned, Bool.and_eq_true, beq_iff_eq, decide_eq_true_eq, huc]; omega
  have u5 : gt_unsigned x m = true ↔ x.val > m := by
    simp only [gt_unsigned, Bool.or_eq_true, decide_eq_true_eq, huc]; omega
  have u6 : ge_unsigned x m = true ↔ x.val ≥ m := by
    simp only [ge_unsigned, Bool.or_eq_true, decide_eq_true_eq, huc]; omega
  have u2 : ne_unsigned x m = true ↔ x.val ≠ m := by
    unfold ne_unsigned; rw [Bool.not_eq_true', ← Bool.not_eq_true, u1]
  -- the numeric meaning of the same-width comparisons
  have w1 : ∀ y : uint128, eq x y = true ↔ x.val = y.val := fun y =>
    ⟨fun h => congrArg val ((eq_iff x y).1 h), fun h => (eq_iff x y).2 (val_inj h)⟩
  have w2 : ∀ y : uint128, ne x y = true ↔ x.val ≠ y.val := fun y => by
    unfold ne; rw [Bool.not_eq_true', ← Bool.not_eq_true, w1]
  have w3 : ∀ y : uint128, lt x y = true ↔ x.val < y.val := fun y => lt_iff x y
  have w4 : ∀ y : uint128, le x y = true ↔ x.val ≤ y.val := fun y => by
    unfold le; rw [Bool.not_eq_true', ← Bool.not_eq_true, lt_iff]; omega
  have w5 : ∀ y : uint128, gt x y = true ↔ y.val < x.val := fun y => lt_iff y x
  have w6 : ∀ y : uint128, ge x y = true ↔ y.val ≤ x.val := fun y => ge_iff x y
  refine ⟨⟨?_, ?_, ?_, ?_, ?_, ?_⟩, ⟨?_, ?_, ?_, ?_, ?_, ?_⟩, ⟨s1, s2, s3, s4, s5, s6⟩,
    ⟨u1, u2, u3, u4, u5, u6⟩, ?_, ?_, ?_, ?_⟩
  · rw [Bool.eq_iff_iff, s1, w1]; omega
  · rw [Bool.eq_iff_iff, s2, w2]; omega
  · rw [Bool.eq_iff_iff, s3, w3]; omega
  · rw [Bool.eq_iff_iff, s4, w4]; omega
  · rw [Bool.eq_iff_iff, s5, w5]; omega
  · rw [Bool.eq_iff_iff, s6, w6]; omega
  · rw [Bool.eq_iff_iff, u1, w1, huv]
  · rw [Bool.eq_iff_iff, u2, w2, huv]
  · rw [Bool.eq_iff_iff, u3, w3, huv]
  · rw [Bool.eq_iff_iff, u4, w4, huv]
  · rw [Bool.eq_iff_iff, u5, w5, huv]
  · rw [Bool.eq_iff_iff, u6, w6, huv]
  · simp [lt_signed]
  · simp [ge_signed, hc0]
  · simp only [lt_unsigned, Nat.cast_zero, hc0]; simp
  · simp only [ge_unsigned, Nat.cast_zero, hc0]; simp

/-- C31, at `x = (0, 5)`, `n = 5` and `m = 7`. -/
theorem mixed_comparisons_agree_witness :
    ((0 : Int) ≤ 5 ∧ (5 : Int) < 2 ^ 63 ∧ 7 < 2 ^ 64) ∧
    (eq_signed (mk64 0 5) 5 = eq (mk64 0 5) (ofSigned 5) ∧
     ne_signed (mk64 0 5) 5 = ne (mk64 0 5) (ofSigned 5) ∧
     lt_signed (mk64 0 5) 5 = lt (mk64 0 5) (ofSigned 5) ∧
     le_signed (mk64 0 5) 5 = le (mk64 0 5) (ofSigned 5) ∧
     gt_signed (mk64 0 5) 5 = gt (mk64 0 5) (ofSigned 5) ∧
     ge_signed (mk64 0 5) 5 = ge (mk64 0 5) (ofSigned 5)) ∧
    (eq_unsigned (mk64 0 5) 7 = eq (mk64 0 5) (ofUnsigned 7) ∧
     ne_unsigned (mk64 0 5) 7 = ne (mk64 0 5) (ofUnsigned 7) ∧
     lt_unsigned (mk64 0 5) 7 = lt (mk64 0 5) (ofUnsigned 7) ∧
     le_unsigned (mk64 0 5) 7 = le (mk64 0 5) (ofUnsigned 7) ∧
     gt_unsigned (mk64 0 5) 7 = gt (mk64 0 5) (ofUnsigned 7) ∧
     ge_unsigned (mk64 0 5) 7 = ge (mk64 0 5) (ofUnsigned 7)) :=
  ⟨by decide,
   (mixed_comparisons_agree (mk64 0 5) 5 7 (by decide) (by decide) (by decide)).1,
   (mixed_comparisons_agree (mk64 0 5) 5 7 (by decide) (by decide) (by decide)).2.1⟩

/-! ## Products of words, negation, postfix forms, `operator+=`, limits -/

theorem val_mk64_low (x : Nat) (hx : x < 2 ^ 64) : (mk64 0 x).val = x := by
  rw [val_mk64, Nat.mod_eq_of_lt hx]; simp

theorem val_neg (x : uint128) : (neg x).val = (2 ^ 128 - x.val) % 2 ^ 128 := by
  have := x.high_lt; have := x.low_lt
  unfold neg
  simp only [val, mk64_high, mk64_low, add64, not64]
  split <;> omega

/-- C32: with both high words zero, `operator*` returns the 128-bit product of
the low words, the same words as `umul128(x, y)` on either of its branches. -/
theorem mul_of_words_is_umul128 (c : Bool) (x y : Nat) (hx : x < 2 ^ 64) (hy : y < 2 ^ 64) :
    eq (mul (mk64 0 x) (mk64 0 y)) (umul128 c x y) = true ∧
    (mul (mk64 0 x) (mk64 0 y)).val = x * y := by
  have hxy := mul_lt_2_128 x y hx hy
  have hv : (mul (mk64 0 x) (mk64 0 y)).val = x * y := by
    rw [val_mul, val_mk64_low x hx, val_mk64_low y hy]
    exact Nat.mod_eq_of_lt (by omega)
  refine ⟨?_, hv⟩
  rw [eq_iff]
  apply val_inj
  rw [hv, val_umul128 c x y hx hy]

/-- C32, at `x = 2^64 - 1` and `y = 2^64 - 1` with the portable `umul128`. -/
theorem mul_of_words_is_umul128_witness :
    (2 ^ 64 - 1 < 2 ^ 64) ∧
    (eq (mul (mk64 0 (2 ^ 64 - 1)) (mk64 0 (2 ^ 64 - 1)))
        (umul128 false (2 ^ 64 - 1) (2 ^ 64 - 1)) = true ∧
     (mul (mk64 0 (2 ^ 64 - 1)) (mk64 0 (2 ^ 64 - 1))).val = (2 ^ 64 - 1) * (2 ^ 64 - 1)) :=
  ⟨by decide, mul_of_words_is_umul128 false (2 ^ 64 - 1) (2 ^ 64 - 1) (by decide) (by decide)⟩

/-- C34: unary minus is negation modulo `2^128`: `val (-x) = (2^128 - val x)
mod 2^128`, `x + (-x) == 0`, `-x == uint128(0) - x`, `-(-x) == x` and
`-uint128(0) == 0`. -/
theorem neg_is_twos_complement (x : uint128) :
    (neg x).val = (2 ^ 128 - x.val) % 2 ^ 128 ∧
    eq (add x (neg x)) (ofSigned 0) = true ∧
    eq (neg x) (sub (ofSigned 0) x) = true ∧
    eq (neg (neg x)) x = true ∧
    eq (neg (ofSigned 0)) (ofSigned 0) = true := by
  have hv := val_lt x
  have hn := val_neg x
  refine ⟨hn, ?_, ?_, ?_, by decide⟩
  · rw [eq_iff]; apply val_inj
    rw [val_add, hn, val_ofSigned_zero]; omega
  · rw [eq_iff]; apply val_inj
    rw [val_sub, hn, val_ofSigned_zero]; omega
  · rw [eq_iff]; apply val_inj
    rw [val_neg, hn]; omega

/-- C35: the postfix `x++` and `x--` return the value after the update, which
is also the new value of `x`: `val x + 1` and `val x - 1` modulo `2^128`. -/
theorem postfix_returns_updated_value (x : uint128) :
    (post_inc x).1 = (post_inc x).2 ∧ (post_inc x).2 = inc x ∧
    (post_inc x).1.val = (x.val + 1) % 2 ^ 128 ∧
    (post_dec x).1 = (post_dec x).2 ∧ (post_dec x).2 = dec x ∧
    ((post_dec x).1.val : Int) = ((x.val : Int) - 1) % 2 ^ 128 ∧
    (post_inc x).1 ≠ x ∧ (post_dec x).1 ≠ x := by
  have hv := val_lt x
  have e128 : (2 : Int) ^ 128 = 340282366920938463463374607431768211456 := by norm_num
  have hi : (inc x).val = (x.val + 1) % 2 ^ 128 := val_inc x
  have hd : (dec x).val = (x.val + 2 ^ 128 - 1) % 2 ^ 128 := val_dec x
  refine ⟨rfl, rfl, hi, rfl, rfl, ?_, ?_, ?_⟩
  · show ((dec x).val : Int) = _
    rw [hd, e128]; omega
  · intro h
    have h' : (inc x).val = x.val := congrArg val h
    omega
  · intro h
    have h' : (dec x).val = x.val := congrArg val h
    omega

/-- C36: the portable branch of `operator+=(std::uint64_t)` leaves `x` equal to
`x + uint128(0, n)`: the value becomes `(val x + n) mod 2^128`, and the high
word receives a carry of 1 exactly when `low + n >= 2^64`. -/
theorem add_assign_u64_is_add (x : uint128) (n : Nat) (hn : n < 2 ^ 64) :
    add_assign_u64 x n = add x (mk64 0 n) ∧
    (add_assign_u64 x n).val = (x.val + n) % 2 ^ 128 ∧
    (add64 x.low n < x.low ↔ 2 ^ 64 ≤ x.low + n) ∧
    (add_assign_u64 x n).high = (x.high + (if 2 ^ 64 ≤ x.low + n then 1 else 0)) % 2 ^ 64 ∧
    (add_assign_u64 x n).low = (x.low + n) % 2 ^ 64 := by
  have hh := x.high_lt
  have hl := x.low_lt
  have hv := val_add_assign_u64 x n hn
  refine ⟨?_, hv, ?_, ?_, ?_⟩
  · apply val_inj
    rw [hv, val_add, val_mk64_low n hn]
  · simp only [add64]; omega
  · simp only [add_assign_u64, mk64_high, add64]
    split <;> split <;> omega
  · simp only [add_assign_u64, mk64_low, add64]
    omega

/-- C36, at `x = (1, 2^64 - 1)` and `n = 1`, where the low word wraps. -/
theorem add_assign_u64_is_add_witness :
    (1 < 2 ^ 64) ∧
    (add_assign_u64 (mk64 1 (2 ^ 64 - 1)) 1 = add (mk64 1 (2 ^ 64 - 1)) (mk64 0 1) ∧
     (add_assign_u64 (mk64 1 (2 ^ 64 - 1)) 1).val
        = ((mk64 1 (2 ^ 64 - 1)).val + 1) % 2 ^ 128 ∧
     (add64 (mk64 1 (2 ^ 64 - 1)).low 1 < (mk64 1 (2 ^ 64 - 1)).low
        ↔ 2 ^ 64 ≤ (mk64 1 (2 ^ 64 - 1)).low + 1) ∧
     (add_assign_u64 (mk64 1 (2 ^ 64 - 1)) 1).high
        = ((mk64 1 (2 ^ 64 - 1)).high
            + (if 2 ^ 64 ≤ (mk64 1 (2 ^ 64 - 1)).low + 1 then 1 else 0)) % 2 ^ 64 ∧
     (add_assign_u64 (mk64 1 (2 ^ 64 - 1)) 1).low
        = ((mk64 1 (2 ^ 64 - 1)).low + 1) % 2 ^ 64) :=
  ⟨by decide, add_assign_u64_is_add (mk64 1 (2 ^ 64 - 1)) 1 (by decide)⟩

/-- C37: `numeric_limits<uint128>::max()` is `(2^64 - 1, 2^64 - 1)`, the value
`2^128 - 1`, and `min()` is 0; every `x` satisfies `min() <= x <= max()`, and
`max() + uint128(1) == min()`, as `is_modulo` declares. -/
theorem numeric_limits_bounds (x : uint128) :
    numeric_limits_max.high = 2 ^ 64 - 1 ∧ numeric_limits_max.low = 2 ^ 64 - 1 ∧
    numeric_limits_max.val = 2 ^ 128 - 1 ∧ numeric_limits_min.val = 0 ∧
    le numeric_limits_min x = true ∧ le x numeric_limits_max = true ∧
    eq (add numeric_limits_max (ofSigned 1)) numeric_limits_min = true ∧
    numeric_limits_is_modulo = true := by
  have hv := val_lt x
  have hmax : numeric_limits_max.val = 2 ^ 128 - 1 := by decide
  have hmin : numeric_limits_min.val = 0 := by decide
  have hle : ∀ a b : uint128, le a b = true ↔ a.val ≤ b.val := by
    intro a b
    unfold le
    rw [Bool.not_eq_true', ← Bool.not_eq_true, lt_iff]
    omega
  refine ⟨by decide, by decide, hmax, hmin, ?_, ?_, by decide, rfl⟩
  · rw [hle, hmin]; omega
  · rw [hle, hmax]; omega

/-! ## Division by zero -/

theorem sub_zero_val (a d : uint128) (hd : d.val = 0) : sub a d = a := by
  apply val_inj
  have := val_lt a
  rw [val_sub, hd]
  omega

/-- The loop on a zero divisor: every pass keeps `lhs` and shifts a one into the
quotient. -/
theorem div_loop_zero_denom (n : Nat) (s : DivState) (hd : s.denom.val = 0)
    (hq : (s.quotient.val + 1) * 2 ^ n ≤ 2 ^ 128) :
    (div_loop n s).lhs = s.lhs ∧
    (div_loop n s).quotient.val + 1 = (s.quotient.val + 1) * 2 ^ n := by
  induction n generalizing s with
  | zero => simp [div_loop]
  | succ n ih =>
    have hp : 0 < 2 ^ n := by positivity
    have e : (s.quotient.val + 1) * 2 ^ (n + 1) = 2 * ((s.quotient.val + 1) * 2 ^ n) := by
      rw [pow_succ]; ring
    have hle : s.quotient.val + 1 ≤ (s.quotient.val + 1) * 2 ^ n :=
      Nat.le_mul_of_pos_right _ hp
    have hq127 : s.quotient.val < 2 ^ 127 := by omega
    have hs := div_step_val s hq127
    have hge : s.denom.val ≤ s.lhs.val := by omega
    obtain ⟨h1, h2⟩ := hs.2.1 hge
    have hden : (div_step s).denom.val = 0 := by rw [hs.1, hd]
    have hlhs : (div_step s).lhs = s.lhs := by
      apply val_inj; rw [h1, hd]; omega
    have e2 : ((div_step s).quotient.val + 1) * 2 ^ n = 2 * ((s.quotient.val + 1) * 2 ^ n) := by
      rw [h2]; ring
    have ih := ih (div_step s) hden (by rw [e2]; omega)
    simp only [div_loop]
    rw [ih.1, ih.2, hlhs, e2, e]
    exact ⟨rfl, rfl⟩

theorem div_impl_by_zero (a z q0 r0 : uint128) (hz : z.val = 0) :
    (div_impl a z q0 r0).2 = a ∧
    (div_impl a z q0 r0).1.val + 1 = 2 ^ ((high_bit a).toNat + 1) := by
  obtain ⟨k, hk, hk127, _, _⟩ := high_bit_bounds a
  have hz0 : high_bit z = 0 := high_bit_zero z hz
  have hshift : div_shift a z = (k : Int) := by
    simp only [div_shift, hk, hz0]
    split <;> omega
  have hit : div_iterations a z = k + 1 := by
    simp only [div_iterations, hshift]; omega
  have hden : (shl z k).val = 0 := by
    rw [val_shl _ _ (by omega), hz]; simp
  have hres := div_general_results ⟨a, z, q0, r0⟩ z
  rw [div_impl_eq_general a z q0 r0 q0 r0]
  simp only [] at hres ⊢
  rw [hres.1, hres.2, hit, hshift, hk]
  simp only [Int.toNat_ofNat]
  have h0 : (ofUnsigned 0).val = 0 := val_ofUnsigned 0 (by norm_num)
  have hpow : (2 : Nat) ^ (k + 1) ≤ 2 ^ 128 := Nat.pow_le_pow_right (by norm_num) (by omega)
  have hl := div_loop_zero_denom (k + 1)
    { lhs := a, denom := shl z k, quotient := ofUnsigned 0, remainder := a } hden
    (by show ((ofUnsigned 0).val + 1) * 2 ^ (k + 1) ≤ 2 ^ 128
        rw [h0]; simpa using hpow)
  refine ⟨hl.1, ?_⟩
  rw [hl.2]
  show ((ofUnsigned 0).val + 1) * 2 ^ (k + 1) = 2 ^ (k + 1)
  rw [h0]; simp

/-- C33: division and modulo by zero return values: `a % uint128(0) == a` and
`a / uint128(0)` is `2^(high_bit(a) + 1) - 1`; so `0 / 0 == 1` and
`max / 0 == max`. -/
theorem div_mod_by_zero (a : uint128) :
    eq (mod a (ofSigned 0)) a = true ∧
    (div a (ofSigned 0)).val = 2 ^ ((high_bit a).toNat + 1) - 1 ∧
    eq (div (ofSigned 0) (ofSigned 0)) (ofSigned 1) = true ∧
    eq (div (mk64 UINT64_MAX UINT64_MAX) (ofSigned 0)) (mk64 UINT64_MAX UINT64_MAX) = true := by
  have h := div_impl_by_zero a (ofSigned 0) (mk64 0 0) (mk64 0 0) val_ofSigned_zero
  have h0 := div_impl_by_zero (ofSigned 0) (ofSigned 0) (mk64 0 0) (mk64 0 0) val_ofSigned_zero
  have hm := div_impl_by_zero (mk64 UINT64_MAX UINT64_MAX) (ofSigned 0) (mk64 0 0) (mk64 0 0)
    val_ofSigned_zero
  have hb0 : high_bit (ofSigned 0) = 0 := by decide
  have hbm : high_bit (mk64 UINT64_MAX UINT64_MAX) = 127 := by decide
  have hvm : (mk64 UINT64_MAX UINT64_MAX).val = 2 ^ 128 - 1 := by decide
  refine ⟨?_, ?_, ?_, ?_⟩
  · rw [eq_iff]; exact h.1
  · have := h.2
    show (div_impl a (ofSigned 0) (mk64 0 0) (mk64 0 0)).1.val = _
    omega
  · rw [eq_iff]; apply val_inj
    have := h0.2
    rw [hb0] at this
    rw [val_ofSigned_one]
    show (div_impl (ofSigned 0) (ofSigned 0) (mk64 0 0) (mk64 0 0)).1.val = 1
    simp at this
    omega
  · rw [eq_iff]; apply val_inj
    have := hm.2
    rw [hbm] at this
    rw [hvm]
    show (div_impl (mk64 UINT64_MAX UINT64_MAX) (ofSigned 0) (mk64 0 0) (mk64 0 0)).1.val = _
    have e : (127 : Int).toNat = 127 := rfl
    rw [e] at this
    omega

end uint128

/-! ## Facts about the text conversion model -/

theorem round_half_even_spec (num den : Nat) (hd : 0 < den) :
    2 * (round_half_even num den * den) ≤ 2 * num + den ∧
    2 * num ≤ 2 * (round_half_even num den * den) + den ∧
    ((2 * (round_half_even num den * den) = 2 * num + den ∨
      2 * num = 2 * (round_half_even num den * den) + den) →
        round_half_even num den % 2 = 0) := by
  have h1 := Nat.div_add_mod num den
  have h2 := Nat.mod_lt num hd
  have e1 : den * (num / den) = num / den * den := Nat.mul_comm _ _
  have e2 : (num / den + 1) * den = num / den * den + den := by ring
  unfold round_half_even
  simp only []
  split
  · refine ⟨by omega, by omega, ?_⟩
    rintro (h | h) <;> omega
  · split
    · rw [e2]
      refine ⟨by omega, by omega, ?_⟩
      rintro (h | h) <;> omega
    · split
      · refine ⟨by omega, by omega, fun _ => by assumption⟩
      · rw [e2]
        refine ⟨by omega, by omega, fun _ => by omega⟩

theorem round_half_even_ge (num den A : Nat) (hd : 0 < den) (h : A * den ≤ num) :
    A ≤ round_half_even num den := by
  have hs := round_half_even_spec num den hd
  by_contra hlt
  have h3 : (round_half_even num den + 1) * den ≤ A * den :=
    Nat.mul_le_mul_right _ (by omega)
  have e : (round_half_even num den + 1) * den = round_half_even num den * den + den := by ring
  omega

theorem round_half_even_le (num den B : Nat) (hd : 0 < den) (h : num ≤ B * den) :
    round_half_even num den ≤ B := by
  have hs := round_half_even_spec num den hd
  by_contra hlt
  have h3 : (B + 1) * den ≤ round_half_even num den * den :=
    Nat.mul_le_mul_right _ (by omega)
  have e : (B + 1) * den = B * den + den := by ring
  omega

theorem round_half_even_zero (den : Nat) (hd : 0 < den) : round_half_even 0 den = 0 := by
  have := round_half_even_le 0 den 0 hd (by simp)
  omega

theorem scaled_den_pos (x : Decoded) (k : Int) : 0 < scaled_den x k := by
  unfold scaled_den; positivity

theorem digits_width_length (w n : Nat) : (digits_width w n).length = w := by
  induction w generalizing n with
  | zero => rfl
  | succ w ih => simp [digits_width, ih]

theorem digit_char_isDigit (d : Nat) : (digit_char d).isDigit = true := by
  unfold digit_char
  split <;> decide

theorem digit_char_ne_point (d : Nat) : digit_char d ≠ '.' := by
  unfold digit_char
  split <;> decide

theorem digit_char_toNat (d : Nat) (hd : d < 10) : (digit_char d).toNat - 48 = d := by
  interval_cases d <;> decide

theorem digits_width_isDigit (w n : Nat) : ∀ c ∈ digits_width w n, c.isDigit = true := by
  induction w generalizing n with
  | zero => intro c hc; simp [digits_width] at hc
  | succ w ih =>
    intro c hc
    simp only [digits_width, List.mem_append, List.mem_singleton] at hc
    rcases hc with hc | hc
    · exact ih _ c hc
    · rw [hc]; exact digit_char_isDigit _

theorem digits_width_no_point (w n : Nat) : '.' ∉ digits_width w n := by
  intro h
  have := digits_width_isDigit w n '.' h
  exact absurd this (by decide)

theorem digits_value_snoc (l : List Char) (c : Char) :
    digits_value (l ++ [c]) = digits_value l * 10 + (c.toNat - 48) := by
  simp [digits_value, List.foldl_append]

theorem digits_value_width (w n : Nat) : digits_value (digits_width w n) = n % 10 ^ w := by
  induction w generalizing n with
  | zero => simp [digits_width, digits_value, Nat.mod_one]
  | succ w ih =>
    simp only [digits_width]
    rw [digits_value_snoc, ih, digit_char_toNat _ (Nat.mod_lt _ (by norm_num))]
    have h1 : n % 10 ^ (w + 1) = n % 10 + 10 * (n / 10 % 10 ^ w) := by
      rw [pow_succ, Nat.mul_comm (10 ^ w) 10, Nat.mod_mul]
    omega

theorem digits_value_append_width (l : List Char) (w n : Nat) :
    digits_value (l ++ digits_width w n) = digits_value l * 10 ^ w + n % 10 ^ w := by
  induction w generalizing n with
  | zero => simp [digits_width, Nat.mod_one]
  | succ w ih =>
    simp only [digits_width]
    rw [← List.append_assoc, digits_value_snoc, ih,
      digit_char_toNat _ (Nat.mod_lt _ (by norm_num))]
    have h1 : n % 10 ^ (w + 1) = n % 10 + 10 * (n / 10 % 10 ^ w) := by
      rw [pow_succ, Nat.mul_comm (10 ^ w) 10, Nat.mod_mul]
    rw [h1, pow_succ]
    ring

theorem count_digits_spec (f n : Nat) (hf : n ≤ f) :
    1 ≤ count_digits f n ∧ n < 10 ^ count_digits f n ∧
      (0 < n → 10 ^ (count_digits f n - 1) ≤ n) := by
  induction f generalizing n with
  | zero =>
    have : n = 0 := by omega
    subst this
    simp [count_digits]
  | succ f ih =>
    unfold count_digits
    split
    · rename_i h
      refine ⟨by omega, by omega, fun h0 => by simpa using h0⟩
    · rename_i h
      have ih := ih (n / 10) (by omega)
      refine ⟨by omega, ?_, fun _ => ?_⟩
      · rw [pow_succ]; omega
      · have h3 := ih.2.2 (by omega)
        have e : count_digits f (n / 10) + 1 - 1 = (count_digits f (n / 10) - 1) + 1 := by omega
        rw [e, pow_succ]; omega

theorem digits_value_nat (n : Nat) : digits_value (digits_nat n) = n := by
  unfold digits_nat
  rw [digits_value_width]
  exact Nat.mod_eq_of_lt (count_digits_spec n n (Nat.le_refl _)).2.1

theorem digits_nat_isDigit (n : Nat) : ∀ c ∈ digits_nat n, c.isDigit = true :=
  digits_width_isDigit _ _

theorem digits_nat_ne_nil (n : Nat) : digits_nat n ≠ [] := by
  intro h
  have h1 := congrArg List.length h
  unfold digits_nat at h1
  rw [digits_width_length] at h1
  have := (count_digits_spec n n (Nat.le_refl _)).1
  simp at h1
  omega

theorem digits_width_zero (w : Nat) : digits_width w 0 = List.replicate w '0' := by
  induction w with
  | zero => rfl
  | succ w ih =>
    simp only [digits_width, Nat.zero_div, Nat.zero_mod, ih, digit_char]
    rw [List.replicate_succ']

theorem trim_zeros_replicate (w : Nat) : trim_zeros (List.replicate w '0') = [] := by
  unfold trim_zeros
  rw [List.reverse_replicate]
  have : List.dropWhile (fun c => c == '0') (List.replicate w '0') = [] := by
    induction w with
    | zero => rfl
    | succ w ih => simp [List.replicate_succ, List.dropWhile_cons, ih]
  rw [this]; rfl

theorem find_scale_spec (f num den k : Nat) (hnum : 0 < num) (hfuel : den ≤ f + k)
    (hprev : ∀ j < k, num * 10 ^ j < den) :
    den ≤ num * 10 ^ find_scale f num den k ∧
    (∀ j < find_scale f num den k, num * 10 ^ j < den) := by
  induction f generalizing k with
  | zero =>
    simp only [find_scale]
    refine ⟨?_, hprev⟩
    have h1 : k < 10 ^ k := Nat.lt_pow_self (by norm_num) k
    have h2 : 10 ^ k ≤ num * 10 ^ k := Nat.le_mul_of_pos_left _ hnum
    omega
  | succ f ih =>
    unfold find_scale
    split
    · rename_i h
      exact ⟨h, hprev⟩
    · rename_i h
      apply ih (k + 1) (by omega)
      intro j hj
      by_cases hjk : j < k
      · exact hprev j hjk
      · have : j = k := by omega
        subst this
        omega

theorem decimal_exponent_spec (num den : Nat) (hnum : 0 < num) (hden : 0 < den) :
    10 ^ (decimal_exponent num den).toNat * den ≤ num * 10 ^ (-decimal_exponent num den).toNat ∧
    num * 10 ^ (-decimal_exponent num den).toNat
      < 10 ^ ((decimal_exponent num den).toNat + 1) * den := by
  unfold decimal_exponent
  rw [if_neg (by omega)]
  split
  · rename_i h
    have hq : 0 < num / den := Nat.div_pos h hden
    have hc := count_digits_spec (num / den) (num / den) (Nat.le_refl _)
    have e1 : ((count_digits (num / den) (num / den) : Int) - 1).toNat
        = count_digits (num / den) (num / den) - 1 := by omega
    have e2 : (-((count_digits (num / den) (num / den) : Int) - 1)).toNat = 0 := by omega
    have e3 : count_digits (num / den) (num / den) - 1 + 1
        = count_digits (num / den) (num / den) := by omega
    rw [e1, e2, e3]
    have h1 := Nat.div_add_mod num den
    have h2 := Nat.mod_lt num hden
    have h3 := Nat.mul_le_mul_right den (hc.2.2 hq)
    have h4 : (num / den + 1) * den ≤ 10 ^ count_digits (num / den) (num / den) * den :=
      Nat.mul_le_mul_right den hc.2.1
    have e4 : (num / den + 1) * den = num / den * den + den := by ring
    have e5 : den * (num / den) = num / den * den := Nat.mul_comm _ _
    simp only [pow_zero, Nat.mul_one]
    constructor <;> omega
  · rename_i h
    have hs := find_scale_spec den num den 0 hnum (by omega) (fun j hj => absurd hj (by omega))
    have hr : 0 < find_scale den num den 0 := by
      by_contra h0
      have h0' : find_scale den num den 0 = 0 := by omega
      rw [h0'] at hs
      simp at hs
      omega
    have e1 : (-(find_scale den num den 0 : Int)).toNat = 0 := by omega
    have e2 : (- -(find_scale den num den 0 : Int)).toNat = find_scale den num den 0 := by omega
    rw [e1, e2]
    have h5 := hs.2 (find_scale den num den 0 - 1) (by omega)
    have e3 : 10 ^ find_scale den num den 0 = 10 ^ (find_scale den num den 0 - 1) * 10 := by
      rw [← pow_succ]; congr 1; omega
    have e4 : num * (10 ^ (find_scale den num den 0 - 1) * 10)
        = num * 10 ^ (find_scale den num den 0 - 1) * 10 := by ring
    refine ⟨by simpa using hs.1, ?_⟩
    rw [e3, e4]
    simp only [zero_add, pow_one]
    omega

theorem scale_bounds (a d P : Nat) (E : Int)
    (h1 : 10 ^ E.toNat * d ≤ a * 10 ^ (-E).toNat)
    (h2 : a * 10 ^ (-E).toNat < 10 ^ (E.toNat + 1) * d) :
    10 ^ P * (d * 10 ^ (-((P : Int) - E)).toNat) ≤ a * 10 ^ ((P : Int) - E).toNat ∧
    a * 10 ^ ((P : Int) - E).toNat < 10 ^ (P + 1) * (d * 10 ^ (-((P : Int) - E)).toNat) := by
  rcases lt_or_le E 0 with hE | hE
  · obtain ⟨r, hr⟩ : ∃ r : Nat, E = -(r : Int) := ⟨(-E).toNat, by omega⟩
    subst hr
    have e1 : (-(r : Int)).toNat = 0 := by omega
    have e2 : (- -(r : Int)).toNat = r := by omega
    have e3 : ((P : Int) - -(r : Int)).toNat = P + r := by omega
    have e4 : (-((P : Int) - -(r : Int))).toNat = 0 := by omega
    rw [e1, e2] at h1 h2
    rw [e3, e4]
    simp only [pow_zero, Nat.one_mul, Nat.mul_one, zero_add, pow_one] at h1 h2 ⊢
    have h3 := Nat.mul_le_mul_left (10 ^ P) h1
    have h4 := Nat.mul_lt_mul_of_pos_left h2 (show 0 < 10 ^ P by positivity)
    have e5 : a * 10 ^ (P + r) = 10 ^ P * (a * 10 ^ r) := by rw [pow_add]; ring
    have e6 : 10 ^ (P + 1) * d = 10 ^ P * (10 * d) := by rw [pow_succ]; ring
    rw [e5, e6]
    exact ⟨h3, h4⟩
  · obtain ⟨n, hn⟩ : ∃ n : Nat, E = (n : Int) := ⟨E.toNat, by omega⟩
    subst hn
    have e1 : ((n : Int)).toNat = n := by omega
    have e2 : (-(n : Int)).toNat = 0 := by omega
    rw [e1, e2] at h1 h2
    simp only [pow_zero, Nat.mul_one] at h1 h2
    rcases Nat.lt_or_ge P n with hP | hP
    · have e3 : ((P : Int) - (n : Int)).toNat = 0 := by omega
      have e4 : (-((P : Int) - (n : Int))).toNat = n - P := by omega
      rw [e3, e4]
      simp only [pow_zero, Nat.mul_one]
      have e5 : 10 ^ P * (d * 10 ^ (n - P)) = 10 ^ n * d := by
        have : 10 ^ n = 10 ^ P * 10 ^ (n - P) := by rw [← pow_add]; congr 1; omega
        rw [this]; ring
      have e6 : 10 ^ (P + 1) * (d * 10 ^ (n - P)) = 10 ^ (n + 1) * d := by
        have : 10 ^ (n + 1) = 10 ^ (P + 1) * 10 ^ (n - P) := by rw [← pow_add]; congr 1; omega
        rw [this]; ring
      rw [e5, e6]
      exact ⟨h1, h2⟩
    · have e3 : ((P : Int) - (n : Int)).toNat = P - n := by omega
      have e4 : (-((P : Int) - (n : Int))).toNat = 0 := by omega
      rw [e3, e4]
      simp only [pow_zero, Nat.mul_one]
      have h3 := Nat.mul_le_mul_right (10 ^ (P - n)) h1
      have h4 := Nat.mul_lt_mul_of_pos_right h2 (show 0 < 10 ^ (P - n) by positivity)
      have e5 : 10 ^ n * d * 10 ^ (P - n) = 10 ^ P * d := by
        have : 10 ^ P = 10 ^ n * 10 ^ (P - n) := by rw [← pow_add]; congr 1; omega
        rw [this]; ring
      have e6 : 10 ^ (n + 1) * d * 10 ^ (P - n) = 10 ^ (P + 1) * d := by
        have : 10 ^ (P + 1) = 10 ^ (n + 1) * 10 ^ (P - n) := by rw [← pow_add]; congr 1; omega
        rw [this]; ring
      rw [e5] at h3
      rw [e6] at h4
      exact ⟨h3, h4⟩

theorem scaled_split (x : Decoded) (k : Int) :
    scaled_num x k = scaled_num x 0 * 10 ^ k.toNat ∧
    scaled_den x k = scaled_den x 0 * 10 ^ (-k).toNat := by
  simp [scaled_num, scaled_den]

theorem scaled_num_pos (x : Decoded) (k : Int) (hm : x.mantissa ≠ 0) : 0 < scaled_num x k := by
  unfold scaled_num
  have : 0 < x.mantissa := Nat.pos_of_ne_zero hm
  positivity

/-- A non-zero value rounded for the `scientific` layout has one non-zero digit
before the point: `10^P ≤ digits < 10^(P + 1)`. -/
theorem round_scientific_normal (x : Decoded) (P : Nat) (hm : x.mantissa ≠ 0) :
    10 ^ P ≤ (round_scientific x P).digits ∧ (round_scientific x P).digits < 10 ^ (P + 1) := by
  have hs := decimal_exponent_spec (scaled_num x 0) (scaled_den x 0)
    (scaled_num_pos x 0 hm) (scaled_den_pos x 0)
  have hb := scale_bounds (scaled_num x 0) (scaled_den x 0) P _ hs.1 hs.2
  have hsp := scaled_split x ((P : Int) - decimal_exponent (scaled_num x 0) (scaled_den x 0))
  rw [← hsp.1, ← hsp.2] at hb
  have hd := scaled_den_pos x ((P : Int) - decimal_exponent (scaled_num x 0) (scaled_den x 0))
  have hge := round_half_even_ge _ _ (10 ^ P) hd hb.1
  have hle := round_half_even_le _ _ (10 ^ (P + 1)) hd (Nat.le_of_lt hb.2)
  unfold round_scientific
  simp only []
  split
  · exact ⟨Nat.le_refl _, Nat.pow_lt_pow_right (by norm_num) (by omega)⟩
  · rename_i hne
    exact ⟨hge, Nat.lt_of_le_of_ne hle hne⟩

theorem round_scientific_lt (x : Decoded) (P : Nat) :
    (round_scientific x P).digits < 10 ^ (P + 1) := by
  by_cases hm : x.mantissa = 0
  · have h0 : ∀ k : Int, scaled_num x k = 0 := by intro k; simp [scaled_num, hm]
    unfold round_scientific
    simp only [h0, round_half_even_zero _ (scaled_den_pos x _)]
    rw [if_neg (by positivity)]
    positivity
  · exact (round_scientific_normal x P hm).2

theorem to_chars_fits (cap : Nat) (x : Decoded) (P : Nat) :
    ((fixed_text x P).length ≤ cap →
      to_chars cap x chars_format.fixed P = ⟨fixed_text x P, errc.success⟩) ∧
    ((scientific_text x P).length ≤ cap →
      to_chars cap x chars_format.scientific P = ⟨scientific_text x P, errc.success⟩) ∧
    ((general_text x P).length ≤ cap →
      to_chars cap x chars_format.general P = ⟨general_text x P, errc.success⟩) := by
  refine ⟨fun h => ?_, fun h => ?_, fun h => ?_⟩ <;> simp [to_chars, h]

theorem zero_texts (e : Int) (P : Nat) :
    scientific_text ⟨false, 0, e⟩ P = '0' :: '.' :: (List.replicate P '0' ++ ['e', '+', '0', '0']) ∧
    fixed_text ⟨false, 0, e⟩ P = '0' :: '.' :: List.replicate P '0' ∧
    general_text ⟨false, 0, e⟩ P = ['0'] := by
  have h0 : ∀ k : Int, scaled_num ⟨false, 0, e⟩ k = 0 := by intro k; simp [scaled_num]
  have hr : ∀ k : Int, round_half_even 0 (scaled_den ⟨false, 0, e⟩ k) = 0 :=
    fun k => round_half_even_zero _ (scaled_den_pos _ _)
  have hrs : ∀ Q : Nat, round_scientific ⟨false, 0, e⟩ Q = ⟨0, 0⟩ := by
    intro Q
    unfold round_scientific
    simp only [h0, hr]
    rw [if_neg (by positivity)]
    simp [decimal_exponent]
  have hd1 : digits_nat 0 = ['0'] := by decide
  have hd2 : digits_width 1 0 = ['0'] := by decide
  have he : exponent_text 0 = ['+', '0', '0'] := by decide
  refine ⟨?_, ?_, ?_⟩
  · simp [scientific_text, hrs, sign_text, hd2, he, digits_width_zero]
  · simp [fixed_text, h0, hr, sign_text, hd1, digits_width_zero]
  · have hw : (0 : Int) < ((max P 1 : Nat) : Int) := by
      have : 1 ≤ max P 1 := le_max_right _ _
      omega
    simp only [general_text, hrs, sign_text]
    rw [if_pos ⟨by norm_num, hw⟩]
    simp [hd1, digits_width_zero, trim_zeros_replicate, point_text]

/-! ## Parsing out-of-range literals -/

/-- The constants of the tests are the doubles nearest to their literals. -/
theorem test_values_are_nearest :
    (from_chars binary64 "1e15".toList value_42 chars_format.general).value = double_1e15 ∧
    (from_chars binary64 "1e-15".toList value_42 chars_format.general).value
      = double_1e_minus_15 ∧
    (from_chars binary64 "999999999.999999".toList value_42 chars_format.general).value
      = double_999999999_999999 ∧
    (from_chars binary64 "9.999999".toList value_42 chars_format.general).value
      = double_9_999999 ∧
    (from_chars binary64 "0.00009999999".toList value_42 chars_format.general).value
      = double_0_00009999999 := by
  decide!

/-- C22: `from_chars` on a literal whose non-zero value is outside the range of
the type, too large or too small, in any format: it reports `value_too_large`,
leaves the output value as it was before the call, and stops after the
literal. -/
theorem from_chars_out_of_range_keeps_value (T : FloatType) (fmt : chars_format)
    (text : List Char) (value : Decoded) (l : Literal)
    (hl : parse_literal fmt text = some l)
    (hr : too_large T l = true ∨ too_small T l = true) :
    from_chars T text value fmt = ⟨value, errc.value_too_large, l.length⟩ ∧
    (from_chars T text value fmt).value = value ∧
    (from_chars T text value fmt).ec = errc.value_too_large := by
  have h : from_chars T text value fmt = ⟨value, errc.value_too_large, l.length⟩ := by
    unfold from_chars
    rw [hl]
    simp only []
    rw [if_pos hr]
  rw [h]
  exact ⟨rfl, rfl, rfl⟩

/-- The literals of `github_issue_110.cpp`, in its formats and for the types
`float`, `double`, `long double` and `__float128`, with the output preset to
42: each call reports `value_too_large` and leaves 42 in place. -/
theorem from_chars_issue_110_literals :
    (∀ T ∈ [binary32, binary64, extended80, binary128],
      ∀ fmt ∈ [chars_format.general, chars_format.scientific],
        from_chars T "1e99999".toList value_42 fmt = ⟨value_42, errc.value_too_large, 7⟩ ∧
        from_chars T "-1e99999".toList value_42 fmt = ⟨value_42, errc.value_too_large, 8⟩ ∧
        from_chars T "1e-99999".toList value_42 fmt = ⟨value_42, errc.value_too_large, 8⟩ ∧
        from_chars T "-1.0e-99999".toList value_42 fmt
          = ⟨value_42, errc.value_too_large, 11⟩) ∧
    (∀ T ∈ [binary32, binary64, extended80, binary128],
        from_chars T "1p99999".toList value_42 chars_format.hex
          = ⟨value_42, errc.value_too_large, 7⟩ ∧
        from_chars T "-1p99999".toList value_42 chars_format.hex
          = ⟨value_42, errc.value_too_large, 8⟩ ∧
        from_chars T "1p-99999".toList value_42 chars_format.hex
          = ⟨value_42, errc.value_too_large, 8⟩ ∧
        from_chars T "-1.0p-99999".toList value_42 chars_format.hex
          = ⟨value_42, errc.value_too_large, 11⟩) :=
  ⟨by decide!, by decide!⟩

/-- C22, at the literal `1e99999` of `github_issue_110.cpp` in `double` and the
`general` format, with the output preset to 42. -/
theorem from_chars_out_of_range_keeps_value_witness :
    (parse_literal chars_format.general "1e99999".toList = some ⟨false, 1, 99999, 0, 7⟩ ∧
     (too_large binary64 ⟨false, 1, 99999, 0, 7⟩ = true ∨
       too_small binary64 ⟨false, 1, 99999, 0, 7⟩ = true)) ∧
    (from_chars binary64 "1e99999".toList value_42 chars_format.general
        = ⟨value_42, errc.value_too_large, 7⟩ ∧
     (from_chars binary64 "1e99999".toList value_42 chars_format.general).value = value_42 ∧
     (from_chars binary64 "1e99999".toList value_42 chars_format.general).ec
        = errc.value_too_large) :=
  ⟨by decide!,
   from_chars_out_of_range_keeps_value binary64 chars_format.general "1e99999".toList value_42
     ⟨false, 1, 99999, 0, 7⟩ (by decide!) (by decide!)⟩

/-! ## Writing with a precision -/

/-- C23: with a buffer that holds the text, `to_chars(x, fixed, P)` succeeds
and writes the sign, at least one digit, the point and exactly `P` digits;
the digits are those of `|x| * 10^P` rounded to an integer, so a shorter
expansion is padded with zeros and a longer one is rounded. -/
theorem to_chars_fixed_has_P_digits (x : Decoded) (P cap : Nat)
    (hcap : (fixed_text x P).length ≤ cap) :
    to_chars cap x chars_format.fixed P = ⟨fixed_text x P, errc.success⟩ ∧
    ∃ whole frac : List Char,
      fixed_text x P = sign_text x ++ whole ++ '.' :: frac ∧
      frac.length = P ∧ (∀ c ∈ frac, c.isDigit = true) ∧
      whole ≠ [] ∧ (∀ c ∈ whole, c.isDigit = true) ∧
      digits_value (whole ++ frac) = round_half_even (scaled_num x P) (scaled_den x P) := by
  refine ⟨(to_chars_fits cap x P).1 hcap, ?_⟩
  refine ⟨digits_nat (round_half_even (scaled_num x P) (scaled_den x P) / 10 ^ P),
    digits_width P (round_half_even (scaled_num x P) (scaled_den x P) % 10 ^ P),
    by simp [fixed_text], digits_width_length _ _, digits_width_isDigit _ _,
    digits_nat_ne_nil _, digits_nat_isDigit _, ?_⟩
  rw [digits_value_append_width, digits_value_nat, Nat.mod_mod]
  exact Nat.div_add_mod' _ _

/-- C23, at `1e15` with `P = 50` in a buffer of 255 characters, and the strings
that `github_issue_158.cpp` expects for `1e15` and `1e-15`. -/
theorem to_chars_fixed_has_P_digits_witness :
    (fixed_text double_1e15 50).length ≤ 255 ∧
    (to_chars 255 double_1e15 chars_format.fixed 50
        = ⟨fixed_text double_1e15 50, errc.success⟩ ∧
     ∃ whole frac : List Char,
      fixed_text double_1e15 50 = sign_text double_1e15 ++ whole ++ '.' :: frac ∧
      frac.length = 50 ∧ (∀ c ∈ frac, c.isDigit = true) ∧
      whole ≠ [] ∧ (∀ c ∈ whole, c.isDigit = true) ∧
      digits_value (whole ++ frac)
        = round_half_even (scaled_num double_1e15 50) (scaled_den double_1e15 50)) ∧
    to_chars 255 double_1e15 chars_format.fixed 50
      = ⟨"1000000000000000.00000000000000000000000000000000000000000000000000".toList,
          errc.success⟩ ∧
    to_chars 255 double_1e_minus_15 chars_format.fixed 50
      = ⟨"0.00000000000000100000000000000007770539987666107924".toList, errc.success⟩ :=
  ⟨by decide!, to_chars_fixed_has_P_digits double_1e15 50 255 (by decide!), by decide!,
    by decide!⟩

/-- C25: with a buffer that holds the text, `to_chars` in the `fixed` and the
`scientific` format writes the digits of the value rounded to `P` fractional
digits, to nearest and ties to even. In `scientific` a rounding up to
`10^(P+1)` becomes the leading digit 1 with the next exponent, and a non-zero
value has one non-zero digit before the point. -/
theorem to_chars_rounds_to_nearest_even (x : Decoded) (P cap : Nat)
    (hfix : (fixed_text x P).length ≤ cap) (hsci : (scientific_text x P).length ≤ cap) :
    (to_chars cap x chars_format.fixed P).ec = errc.success ∧
    (to_chars cap x chars_format.fixed P).written =
      sign_text x ++ digits_nat (round_half_even (scaled_num x P) (scaled_den x P) / 10 ^ P)
        ++ '.' :: digits_width P (round_half_even (scaled_num x P) (scaled_den x P) % 10 ^ P) ∧
    2 * (round_half_even (scaled_num x P) (scaled_den x P) * scaled_den x P)
      ≤ 2 * scaled_num x P + scaled_den x P ∧
    2 * scaled_num x P
      ≤ 2 * (round_half_even (scaled_num x P) (scaled_den x P) * scaled_den x P)
        + scaled_den x P ∧
    ((2 * (round_half_even (scaled_num x P) (scaled_den x P) * scaled_den x P)
        = 2 * scaled_num x P + scaled_den x P ∨
      2 * scaled_num x P
        = 2 * (round_half_even (scaled_num x P) (scaled_den x P) * scaled_den x P)
          + scaled_den x P) →
      round_half_even (scaled_num x P) (scaled_den x P) % 2 = 0) ∧
    (to_chars cap x chars_format.scientific P).ec = errc.success ∧
    (to_chars cap x chars_format.scientific P).written =
      sign_text x ++ digits_width 1 ((round_scientific x P).digits / 10 ^ P)
        ++ '.' :: digits_width P ((round_scientific x P).digits % 10 ^ P)
        ++ 'e' :: exponent_text (round_scientific x P).exponent ∧
    digits_value (digits_width 1 ((round_scientific x P).digits / 10 ^ P)
        ++ digits_width P ((round_scientific x P).digits % 10 ^ P))
      = (round_scientific x P).digits ∧
    (round_scientific x P =
        ⟨round_half_even
            (scaled_num x ((P : Int) - decimal_exponent (scaled_num x 0) (scaled_den x 0)))
            (scaled_den x ((P : Int) - decimal_exponent (scaled_num x 0) (scaled_den x 0))),
          decimal_exponent (scaled_num x 0) (scaled_den x 0)⟩ ∨
     (round_half_even
          (scaled_num x ((P : Int) - decimal_exponent (scaled_num x 0) (scaled_den x 0)))
          (scaled_den x ((P : Int) - decimal_exponent (scaled_num x 0) (scaled_den x 0)))
        = 10 ^ (P + 1) ∧
      round_scientific x P
        = ⟨10 ^ P, decimal_exponent (scaled_num x 0) (scaled_den x 0) + 1⟩)) ∧
    (x.mantissa ≠ 0 →
      1 ≤ (round_scientific x P).digits / 10 ^ P ∧
      (round_scientific x P).digits / 10 ^ P ≤ 9) := by
  have hf := (to_chars_fits cap x P).1 hfix
  have hs := (to_chars_fits cap x P).2.1 hsci
  have hr := round_half_even_spec (scaled_num x P) (scaled_den x P) (scaled_den_pos x P)
  have hlt := round_scientific_lt x P
  have hp : 0 < 10 ^ P := by positivity
  refine ⟨by rw [hf], by rw [hf]; simp [fixed_text], hr.1, hr.2.1, hr.2.2, by rw [hs],
    by rw [hs]; simp [scientific_text], ?_, ?_, ?_⟩
  · rw [digits_value_append_width, digits_value_width, Nat.mod_mod]
    have h1 : (round_scientific x P).digits / 10 ^ P < 10 := by
      apply Nat.div_lt_of_lt_mul
      rw [pow_succ] at hlt
      exact hlt
    rw [pow_one, Nat.mod_eq_of_lt h1]
    exact Nat.div_add_mod' _ _
  · unfold round_scientific
    simp only []
    split
    · rename_i h
      exact Or.inr ⟨h, rfl⟩
    · exact Or.inl rfl
  · intro hm
    have hn := round_scientific_normal x P hm
    constructor
    · exact (Nat.one_le_div_iff hp).2 hn.1
    · have h1 : (round_scientific x P).digits / 10 ^ P < 10 := by
        apply Nat.div_lt_of_lt_mul
        rw [pow_succ] at hlt
        exact hlt
      omega

/-- C25, at `999999999.999999` with `P = 10` in a buffer of 255 characters, and
the strings that `test_round_9` expects: the carry through the nines gives
`1.0000000000e+09`, `10.000` and `0.000`. -/
theorem to_chars_rounds_to_nearest_even_witness :
    ((fixed_text double_999999999_999999 10).length ≤ 255 ∧
     (scientific_text double_999999999_999999 10).length ≤ 255) ∧
    (to_chars 255 double_999999999_999999 chars_format.fixed 10).ec = errc.success ∧
    to_chars 255 double_999999999_999999 chars_format.scientific 10
      = ⟨"1.0000000000e+09".toList, errc.success⟩ ∧
    round_scientific double_999999999_999999 10 = ⟨10 ^ 10, 9⟩ ∧
    to_chars 255 double_999999999_999999 chars_format.fixed 3
      = ⟨"1000000000.000".toList, errc.success⟩ ∧
    to_chars 255 double_9_999999 chars_format.scientific 5
      = ⟨"1.00000e+01".toList, errc.success⟩ ∧
    to_chars 255 double_9_999999 chars_format.fixed 3 = ⟨"10.000".toList, errc.success⟩ ∧
    to_chars 255 double_0_00009999999 chars_format.scientific 5
      = ⟨"1.00000e-04".toList, errc.success⟩ ∧
    to_chars 255 double_0_00009999999 chars_format.fixed 3
      = ⟨"0.000".toList, errc.success⟩ :=
  ⟨by decide!,
   (to_chars_rounds_to_nearest_even double_999999999_999999 10 255 (by decide!)
      (by decide!)).1,
   by decide!, by decide!, by decide!, by decide!, by decide!, by decide!, by decide!⟩

/-- C26: for the value zero and every precision `P`, in a buffer that holds the
text, `to_chars` writes `0.` with `P` zeros and `e+00` in the `scientific`
format, `0.` with `P` zeros in the `fixed` format, and `0` in the `general`
format. -/
theorem to_chars_zero (e : Int) (P cap : Nat) (hcap : P + 6 ≤ cap) :
    to_chars cap ⟨false, 0, e⟩ chars_format.scientific P
      = ⟨'0' :: '.' :: (List.replicate P '0' ++ ['e', '+', '0', '0']), errc.success⟩ ∧
    to_chars cap ⟨false, 0, e⟩ chars_format.fixed P
      = ⟨'0' :: '.' :: List.replicate P '0', errc.success⟩ ∧
    to_chars cap ⟨false, 0, e⟩ chars_format.general P = ⟨['0'], errc.success⟩ := by
  have hz := zero_texts e P
  have hf := to_chars_fits cap ⟨false, 0, e⟩ P
  rw [hz.1, hz.2.1, hz.2.2] at hf
  refine ⟨hf.2.1 ?_, hf.1 ?_, hf.2.2 ?_⟩
  · simp; omega
  · simp; omega
  · simp; omega

/-- C26, at `P = 50` in a buffer of 255 characters: the strings that
`test_zero` expects. -/
theorem to_chars_zero_witness :
    50 + 6 ≤ 255 ∧
    to_chars 255 ⟨false, 0, 0⟩ chars_format.scientific 50
      = ⟨"0.00000000000000000000000000000000000000000000000000e+00".toList, errc.success⟩ ∧
    to_chars 255 ⟨false, 0, 0⟩ chars_format.fixed 50
      = ⟨"0.00000000000000000000000000000000000000000000000000".toList, errc.success⟩ ∧
    to_chars 255 ⟨false, 0, 0⟩ chars_format.general 50 = ⟨"0".toList, errc.success⟩ :=
  ⟨by decide, to_chars_zero 0 50 255 (by decide)⟩

end charconv

